import Mathlib

/-!
# alfredemoji: a verification development

A shallow embedding of `main.go` (command `alfredemoji`) together with the
part of the Go standard library that the program calls (`strings`,
`unicode/utf8`, `unicode`, `fmt`, `encoding/json`), and theorems about the
per-line parser, the snippet builder, the identifier format and the archive
writer.

Modelling conventions.

* A Go `string` is an immutable sequence of bytes; it is embedded as a list of
  natural numbers, each byte being a value below 256.  Nothing forces a Go
  string to be valid UTF-8, and the embedding keeps that.
* A Go `rune` is embedded as a natural number.
* A run-time panic is a value of type `Panic`; code that can panic returns
  `Except Panic _`.
* Effects of `main` (log output, the zip archive, the random source) are
  carried by an explicit state, the environment by an explicit `World`.
* The Unicode case table consulted by `unicode.ToLower` for runes above ASCII
  is not part of the program; it is a parameter `tbl` of the embedding.
-/

namespace Alfredemoji

/-! ## Go strings and `unicode/utf8` -/

/-- A Go string: a sequence of bytes. -/
abbrev GoString := List Nat

/-- The constant `utf8.RuneError`, U+FFFD. -/
def RuneError : Nat := 0xFFFD

/-- The predicate `utf8.ValidRune`: a Unicode scalar value. -/
def ValidRune (r : Nat) : Prop := r ≤ 0x10FFFF ∧ ¬ (0xD800 ≤ r ∧ r ≤ 0xDFFF)

instance (r : Nat) : Decidable (ValidRune r) := by
  unfold ValidRune; exact inferInstance

/-- The function `utf8.EncodeRune` (also `utf8.AppendRune`, `Builder.WriteRune`):
the UTF-8 encoding of `r`; a surrogate or out-of-range rune is encoded as
`RuneError`. -/
def encodeRune (r : Nat) : GoString :=
  if r ≤ 0x7F then [r]
  else if r ≤ 0x7FF then [0xC0 + r / 64, 0x80 + r % 64]
  else if 0x10FFFF < r ∨ (0xD800 ≤ r ∧ r ≤ 0xDFFF) then [0xEF, 0xBF, 0xBD]
  else if r ≤ 0xFFFF then [0xE0 + r / 4096, 0x80 + r / 64 % 64, 0x80 + r % 64]
  else [0xF0 + r / 262144, 0x80 + r / 4096 % 64, 0x80 + r / 64 % 64, 0x80 + r % 64]

/-- A Go string literal: the UTF-8 bytes of the source text. -/
def lit (s : String) : GoString := s.toList.flatMap (fun c => encodeRune c.toNat)

/-- A continuation byte, `locb <= b <= hicb`. -/
def isCont (b : Nat) : Bool := 0x80 ≤ b && b ≤ 0xBF

/-- The function `utf8.DecodeRuneInString`: the first rune of `s` and its width
in bytes.  An empty string gives `(RuneError, 0)`, an invalid or truncated
encoding gives `(RuneError, 1)`.  The branches follow the tables `first` and
`acceptRanges` of the package. -/
def decodeRune : GoString → Nat × Nat
  | [] => (RuneError, 0)
  | s0 :: t =>
    if s0 < 0x80 then (s0, 1)
    else if s0 < 0xC2 then (RuneError, 1)
    else if s0 < 0xE0 then
      match t with
      | s1 :: _ =>
        if isCont s1 then (s0 % 32 * 64 + s1 % 64, 2) else (RuneError, 1)
      | _ => (RuneError, 1)
    else if s0 < 0xF0 then
      match t with
      | s1 :: s2 :: _ =>
        if (if s0 = 0xE0 then 0xA0 else 0x80) ≤ s1 ∧ s1 ≤ (if s0 = 0xED then 0x9F else 0xBF) then
          if isCont s2 then (s0 % 16 * 4096 + s1 % 64 * 64 + s2 % 64, 3) else (RuneError, 1)
        else (RuneError, 1)
      | _ => (RuneError, 1)
    else if s0 < 0xF5 then
      match t with
      | s1 :: s2 :: s3 :: _ =>
        if (if s0 = 0xF0 then 0x90 else 0x80) ≤ s1 ∧ s1 ≤ (if s0 = 0xF4 then 0x8F else 0xBF) then
          if isCont s2 then
            if isCont s3 then
              (s0 % 8 * 262144 + s1 % 64 * 4096 + s2 % 64 * 64 + s3 % 64, 4)
            else (RuneError, 1)
          else (RuneError, 1)
        else (RuneError, 1)
      | _ => (RuneError, 1)
    else (RuneError, 1)

/-- The function `utf8.RuneStart`: `b` is not a continuation byte. -/
def RuneStart (b : Nat) : Bool := !(isCont b)

/-- The backward scan of `utf8.DecodeLastRuneInString`,
`for start--; start >= lim; start-- { if RuneStart(s[start]) { break } }`
followed by `if start < 0 { start = 0 }`.  The argument is `start + 1`. -/
def scanBack (s : GoString) (lim : Nat) : Nat → Nat
  | 0 => 0
  | k + 1 =>
    if k < lim then k
    else if RuneStart (s.getD k 0) then k
    else scanBack s lim k

/-- The function `utf8.DecodeLastRuneInString`: the last rune of `s` and its
width. -/
def decodeLastRune (s : GoString) : Nat × Nat :=
  if s.length = 0 then (RuneError, 0)
  else
    let last := s.getD (s.length - 1) 0
    if last < 0x80 then (last, 1)
    else
      let start := scanBack s (s.length - 4) (s.length - 1)
      let rs := decodeRune (s.drop start)
      if start + rs.2 ≠ s.length then (RuneError, 1) else rs

/-! ## `unicode` -/

/-- The function `unicode.IsSpace`: the Latin-1 switch of the Go source and the
table `White_Space` above Latin-1. -/
def IsSpace (r : Nat) : Bool :=
  if r ≤ 0xFF then
    r = 0x09 || r = 0x0A || r = 0x0B || r = 0x0C || r = 0x0D || r = 0x20 || r = 0x85 || r = 0xA0
  else
    r = 0x1680 || (0x2000 ≤ r && r ≤ 0x200A) || r = 0x2028 || r = 0x2029 || r = 0x202F
      || r = 0x205F || r = 0x3000

/-- The function `unicode.ToLower`: the ASCII branch is the one of the Go source,
`tbl` stands for `To(LowerCase, r)` over the case table `CaseRanges`. -/
def unicodeToLower (tbl : Nat → Nat) (r : Nat) : Nat :=
  if r ≤ 0x7F then (if 0x41 ≤ r ∧ r ≤ 0x5A then r + 32 else r) else tbl r

/-! ## `strings` -/

/-- The function `strings.HasPrefix`. -/
def HasPrefix (s pre : GoString) : Bool := s.take pre.length == pre

/-- The first position at which `sep` occurs in `s`, if any. -/
def indexOf (sep : GoString) : GoString → Option Nat
  | [] => if HasPrefix [] sep then some 0 else none
  | c :: t => if HasPrefix (c :: t) sep then some 0 else (indexOf sep t).map (· + 1)

/-- The function `strings.Index`: the index of the first instance of `sep` in
`s`, or `-1`. -/
def Index (s sep : GoString) : Int :=
  match indexOf sep s with
  | some i => (i : Int)
  | none => -1

/-- The function `strings.Contains`, `Index(s, substr) >= 0`. -/
def Contains (s substr : GoString) : Bool := decide (0 ≤ Index s substr)

/-- The function `utf8.RuneCountInString` (the fuel is the length of `s`). -/
def runeCount : Nat → GoString → Nat
  | 0, _ => 0
  | k + 1, s => if s = [] then 0 else 1 + runeCount k (s.drop (decodeRune s).2)

/-- The loop of `strings.explode`: up to `k` leading UTF-8 sequences of `s`, each
alone (an invalid byte replaced by `RuneError`), then the rest. -/
def explodeLoop : Nat → GoString → List GoString
  | 0, s => [s]
  | k + 1, s =>
    let d := decodeRune s
    (if d.1 = RuneError then encodeRune RuneError else s.take d.2) :: explodeLoop k (s.drop d.2)

/-- The function `strings.explode` for `n >= 0`. -/
def explode (s : GoString) (n : Nat) : List GoString :=
  let m := min n (runeCount s.length s)
  if m = 0 then [] else explodeLoop (m - 1) s

/-- The loop of `strings.genSplit` for a non-empty separator: at most `k` cuts. -/
def splitLoop (sep : GoString) : Nat → GoString → List GoString
  | 0, s => [s]
  | k + 1, s =>
    match indexOf sep s with
    | none => [s]
    | some m => s.take m :: splitLoop sep k (s.drop (m + sep.length))

/-- The function `strings.SplitN` for a count `n >= 0`: `n = 0` gives no
substrings, an empty separator splits after each UTF-8 sequence, otherwise at
most `n` substrings, the last one the unsplit remainder. -/
def SplitN (s sep : GoString) (n : Nat) : List GoString :=
  if n = 0 then []
  else if sep = [] then explode s n
  else splitLoop sep (n - 1) s

/-- The loop of `strings.TrimLeftFunc`: drop leading runes satisfying `f`. -/
def trimLeftLoop (f : Nat → Bool) : Nat → GoString → GoString
  | 0, s => s
  | k + 1, s =>
    if s = [] then []
    else if f (decodeRune s).1 then trimLeftLoop f k (s.drop (decodeRune s).2)
    else s

/-- The function `strings.TrimLeftFunc`. -/
def TrimLeftFunc (f : Nat → Bool) (s : GoString) : GoString := trimLeftLoop f s.length s

/-- The loop of `strings.TrimRightFunc`: drop trailing runes satisfying `f`. -/
def trimRightLoop (f : Nat → Bool) : Nat → GoString → GoString
  | 0, s => s
  | k + 1, s =>
    if s = [] then []
    else if f (decodeLastRune s).1 then
      trimRightLoop f k (s.take (s.length - (decodeLastRune s).2))
    else s

/-- The function `strings.TrimRightFunc`. -/
def TrimRightFunc (f : Nat → Bool) (s : GoString) : GoString := trimRightLoop f s.length s

/-- The function `strings.TrimSpace`: `s` without leading and trailing white
space as defined by Unicode, that is `TrimFunc(s, unicode.IsSpace)`; the ASCII
fast paths of the Go source compute the same slice. -/
def TrimSpace (s : GoString) : GoString := TrimRightFunc IsSpace (TrimLeftFunc IsSpace s)

/-- The function `strings.Map` with a mapping that never returns a negative
rune: every rune of `s` (an invalid byte counts as `RuneError`) is replaced by
the encoding of its image (the fuel is the length of `s`). -/
def mapLoop (f : Nat → Nat) : Nat → GoString → GoString
  | 0, _ => []
  | k + 1, s =>
    if s = [] then []
    else encodeRune (f (decodeRune s).1) ++ mapLoop f k (s.drop (decodeRune s).2)

/-- The function `strings.ToLower`, `Map(unicode.ToLower, s)`; the ASCII fast
path of the Go source computes the same string. -/
def ToLower (tbl : Nat → Nat) (s : GoString) : GoString :=
  mapLoop (unicodeToLower tbl) s.length s

/-- The loop of `strings.Replace` for a non-empty `old`: every non-overlapping
instance of `old`, from the left, is replaced by `new` (the fuel bounds the
number of instances). -/
def replaceLoop (old new : GoString) : Nat → GoString → GoString
  | 0, s => s
  | k + 1, s =>
    match indexOf old s with
    | none => s
    | some j => s.take j ++ new ++ replaceLoop old new k (s.drop (j + old.length))

/-- The loop of `strings.Replace` for an empty `old`: `new` is written after
every UTF-8 sequence of `s` (and once in front of `s`, by the caller). -/
def insertLoop (new : GoString) : Nat → GoString → GoString
  | 0, s => s
  | k + 1, s =>
    if s = [] then []
    else s.take (decodeRune s).2 ++ new ++ insertLoop new k (s.drop (decodeRune s).2)

/-- The function `strings.ReplaceAll`, `Replace(s, old, new, -1)`. -/
def ReplaceAll (s old new : GoString) : GoString :=
  if old = new then s
  else if old = [] then new ++ insertLoop new s.length s
  else replaceLoop old new s.length s

/-! ## `fmt` -/

/-- The digit table `udigits` of package `fmt`, `"0123456789ABCDEFX"`. -/
def udigits : GoString := lit "0123456789ABCDEFX"

/-- The verb `%X` of `fmt` applied to a byte slice (`fmtSbx`): for each byte `c` the
two characters `udigits[c>>4]`, `udigits[c&0xF]`, without separator. -/
def fmtX (b : List Nat) : GoString :=
  b.flatMap (fun c => [udigits.getD (c % 256 / 16) 0, udigits.getD (c % 16) 0])

/-- The slice expression `b[lo:hi]` within bounds. -/
def slice (b : List Nat) (lo hi : Nat) : List Nat := (b.take hi).drop lo

/-! ## The program -/

/-- A run-time panic of the program. -/
inductive Panic
  /-- Text `index out of range [i] with length len`. -/
  | indexOutOfRange (i len : Nat)
  /-- Text `slice bounds out of range [i:len]`. -/
  | sliceBounds (i : Int) (len : Nat)
  /-- The call `panic(err)` of `uuid`, with the values `rand.Read` returned. -/
  | randRead (n : Nat) (err : Bool)
  deriving DecidableEq

/-- The slice expression `s[i:]` with its bounds check. -/
def sliceFrom (s : GoString) (i : Int) : Except Panic GoString :=
  if 0 ≤ i ∧ i ≤ (s.length : Int) then .ok (s.drop i.toNat) else .error (.sliceBounds i s.length)

/-- The inner struct of `snippet`, with its JSON keys `snippet`, `uid`, `name`,
`keyword`. -/
structure snippetBody where
  /-- Field `Snippet`, the emoji glyphs. -/
  Snippet : GoString
  /-- Field `UID`. -/
  UID : GoString
  /-- Field `Name`. -/
  Name : GoString
  /-- Field `Keyword`. -/
  Keyword : GoString
  deriving DecidableEq

/-- The type `snippet`; its only field has the JSON key `alfredsnippet`. -/
structure snippet where
  /-- Field `Snippet`. -/
  Snippet : snippetBody
  deriving DecidableEq

/-- What one call `rand.Read(b)` on the fresh 16-byte buffer leaves behind: the
buffer, the count `n` and whether `err != nil`. -/
structure RandRead where
  /-- The 16 bytes of `b` after the call. -/
  b : List Nat
  /-- The number of bytes read. -/
  n : Nat
  /-- Whether the error is not nil. -/
  err : Bool
  deriving DecidableEq

/-- The last statement of `uuid`:
`fmt.Sprintf("%X-%X-%X-%X-%X", b[0:4], b[4:6], b[6:8], b[8:10], b[10:])`. -/
def uuidFormat (b : List Nat) : GoString :=
  fmtX (slice b 0 4) ++ lit "-" ++ fmtX (slice b 4 6) ++ lit "-" ++ fmtX (slice b 6 8)
    ++ lit "-" ++ fmtX (slice b 8 10) ++ lit "-" ++ fmtX (b.drop 10)

/-- The function `uuid`; `r` is the outcome of its call of `rand.Read`. -/
def uuid (r : RandRead) : Except Panic GoString :=
  if r.err ∨ r.n ≠ 16 then .error (.randRead r.n r.err)
  else .ok (uuidFormat r.b)

/-- The function `newSnippet`; `r` is the outcome of the call of `rand.Read` in
`uuid`. -/
def newSnippet (tbl : Nat → Nat) (r : RandRead) (emoji name : GoString) : Except Panic snippet :=
  match uuid r with
  | .error p => .error p
  | .ok uid =>
    let normalizedName := ToLower tbl name
    let normalizedName := ReplaceAll normalizedName (lit " ") (lit "-")
    let normalizedName := ReplaceAll normalizedName (lit ":") (lit "")
    .ok { Snippet := { Snippet := emoji, UID := uid, Name := name,
                       Keyword := lit ":" ++ normalizedName ++ lit ":" } }

/-! ## `encoding/json` -/

/-- The digit table `hex` of package `encoding/json`. -/
def hex : GoString := lit "0123456789abcdef"

/-- The table `htmlSafeSet`: the ASCII bytes written unescaped when HTML escaping
is on (the default of an `Encoder`). -/
def htmlSafe (b : Nat) : Bool :=
  0x20 ≤ b && b < 0x80 && b != 0x22 && b != 0x26 && b != 0x3C && b != 0x3E && b != 0x5C

/-- The escape that `encodeState.string` writes for an ASCII byte outside
`htmlSafeSet`. -/
def escapeByte (b : Nat) : GoString :=
  if b = 0x5C ∨ b = 0x22 then [0x5C, b]
  else if b = 0x0A then lit "\\n"
  else if b = 0x0D then lit "\\r"
  else if b = 0x09 then lit "\\t"
  else lit "\\u00" ++ [hex.getD (b / 16) 0, hex.getD (b % 16) 0]

/-- The loop of `encodeState.string` with `escapeHTML` set (the fuel is the
length of `s`): safe ASCII bytes and well-formed multi-byte sequences are copied,
other ASCII bytes are escaped, an invalid byte is written as the escape of
`RuneError`, U+2028 and U+2029 are escaped. -/
def stringLoop : Nat → GoString → GoString
  | 0, _ => []
  | _ + 1, [] => []
  | k + 1, b :: t =>
    if b < 0x80 then
      if htmlSafe b then b :: stringLoop k t
      else escapeByte b ++ stringLoop k t
    else
      let d := decodeRune (b :: t)
      if d.1 = RuneError ∧ d.2 = 1 then lit "\\ufffd" ++ stringLoop k t
      else if d.1 = 0x2028 ∨ d.1 = 0x2029 then
        lit "\\u202" ++ [hex.getD (d.1 % 16) 0] ++ stringLoop k ((b :: t).drop d.2)
      else (b :: t).take d.2 ++ stringLoop k ((b :: t).drop d.2)

/-- The JSON encoding of a Go string (`encodeState.string`). -/
def encodeString (s : GoString) : GoString :=
  lit "\"" ++ stringLoop s.length s ++ lit "\""

/-- The bytes `json.NewEncoder(w).Encode(s)` writes for a `snippet`: the
compact object, fields in declaration order under their JSON keys, followed by
a newline. -/
def encodeSnippet (s : snippet) : GoString :=
  lit "\x7b\"alfredsnippet\":\x7b\"snippet\":" ++ encodeString s.Snippet.Snippet
    ++ lit ",\"uid\":" ++ encodeString s.Snippet.UID
    ++ lit ",\"name\":" ++ encodeString s.Snippet.Name
    ++ lit ",\"keyword\":" ++ encodeString s.Snippet.Keyword
    ++ lit "\x7d\x7d\n"

/-! ## The archive -/

/-- One file of the zip archive: its name and its uncompressed content. -/
structure ZipEntry where
  /-- The file name. -/
  name : GoString
  /-- The bytes written to the file. -/
  data : GoString
  deriving DecidableEq

/-- How the environment treats one call of `store`. -/
inductive StoreFault
  /-- Every operation succeeds. -/
  | none
  /-- The call `zipFD.Create` fails. -/
  | create
  /-- The write of the encoder fails after `written` bytes. -/
  | write (written : Nat)
  /-- The call `zipFD.Flush` fails. -/
  | flush
  deriving DecidableEq

/-- The three errors `store` returns. -/
inductive StoreError
  /-- Text `cannot create file in zip: ...`. -/
  | cannotCreate
  /-- Text `cannot write file in zip: ...`. -/
  | cannotWrite
  /-- Text `cannot flush after file creation in zip: ...`. -/
  | cannotFlush
  deriving DecidableEq

/-- The method `snippet.store`: the archive after the call and the error
returned. -/
def snippet.store (s : snippet) (fault : StoreFault) (zip : List ZipEntry) :
    List ZipEntry × Option StoreError :=
  let fn := s.Snippet.Name ++ lit " [" ++ s.Snippet.UID ++ lit "].json"
  match fault with
  | .create => (zip, some .cannotCreate)
  | .write k => (zip ++ [{ name := fn, data := (encodeSnippet s).take k }], some .cannotWrite)
  | .flush => (zip ++ [{ name := fn, data := encodeSnippet s }], some .cannotFlush)
  | .none => (zip ++ [{ name := fn, data := encodeSnippet s }], none)

/-! ## `main` -/

/-- A line written by `log.Println`. -/
inductive LogLine
  /-- Output of `log.Println("skipping", l)`. -/
  | skipping (l : GoString)
  /-- Output of `log.Println("cannot store in zip file (", name, "):", err)`. -/
  | cannotStore (name : GoString) (err : StoreError)
  deriving DecidableEq

/-- Lines 52 to 60 of `main.go`, the parsing of one scanned line: the lines
logged, and either a panic, or nothing (the `continue` of line 54), or the
pair `emoji, name`. -/
def parseLine (raw : GoString) : List LogLine × Except Panic (Option (GoString × GoString)) :=
  let l := TrimSpace raw
  if HasPrefix l (lit "#") || l == lit "" || !Contains l (lit "; fully-qualified") then
    ([], .ok none)
  else
    match sliceFrom l (Index l (lit "# ") + 2) with
    | .error p => ([], .error p)
    | .ok payload =>
      let parts := SplitN payload (lit " ") 2
      let logged := if parts.length ≠ 2 then [LogLine.skipping l] else []
      match parts[0]?, parts[1]? with
      | none, _ => (logged, .error (.indexOutOfRange 0 parts.length))
      | some _, none => (logged, .error (.indexOutOfRange 1 parts.length))
      | some emoji, some name => (logged, .ok (some (emoji, name)))

/-- What the program has done so far. -/
structure State where
  /-- The lines logged. -/
  log : List LogLine
  /-- The entries of the archive, in the order written. -/
  zip : List ZipEntry
  /-- The number of calls of `rand.Read`. -/
  reads : Nat
  /-- The number of calls of `store`. -/
  stores : Nat
  deriving DecidableEq

/-- The state at program start. -/
def State.init : State := { log := [], zip := [], reads := 0, stores := 0 }

/-- The environment of a run. -/
structure World where
  /-- Whether `os.Create` fails. -/
  createErr : Bool
  /-- Whether `http.Get` fails. -/
  getErr : Bool
  /-- The lines the scanner delivers. -/
  lines : List GoString
  /-- Whether the scanner ends on a read error. -/
  scanErr : Bool
  /-- The outcome of the i-th call of `rand.Read`. -/
  rand : Nat → RandRead
  /-- The treatment of the i-th call of `store`. -/
  fault : Nat → StoreFault

/-- The body of the scanner loop, lines 52 to 64: the state after the line
and the panic that ended it, if any. -/
def processLine (tbl : Nat → Nat) (w : World) (st : State) (raw : GoString) :
    State × Option Panic :=
  match parseLine raw with
  | (logged, .error p) => ({ st with log := st.log ++ logged }, some p)
  | (logged, .ok none) => ({ st with log := st.log ++ logged }, none)
  | (logged, .ok (some (emoji, name))) =>
    match newSnippet tbl (w.rand st.reads) emoji name with
    | .error p => ({ st with log := st.log ++ logged, reads := st.reads + 1 }, some p)
    | .ok s =>
      let r := s.store (w.fault st.stores) st.zip
      ({ log := st.log ++ logged ++
            (match r.2 with
             | some e => [LogLine.cannotStore s.Snippet.Name e]
             | none => []),
         zip := r.1, reads := st.reads + 1, stores := st.stores + 1 }, none)

/-- The scanner loop, lines 51 to 65, over the lines still to come. -/
def mainLoop (tbl : Nat → Nat) (w : World) : State → List GoString → State × Option Panic
  | st, [] => (st, none)
  | st, raw :: rest =>
    match processLine tbl w st raw with
    | (st1, some p) => (st1, some p)
    | (st1, none) => mainLoop tbl w st1 rest

/-- How the process ends. -/
inductive Exit
  /-- Return from `main`, exit code 0. -/
  | done
  /-- A call of `log.Fatal`. -/
  | fatal
  /-- An uncaught panic. -/
  | panicked (p : Panic)
  deriving DecidableEq

/-- The function `main`. -/
def main (tbl : Nat → Nat) (w : World) : State × Exit :=
  if w.createErr then (State.init, .fatal)
  else if w.getErr then (State.init, .fatal)
  else
    match mainLoop tbl w State.init w.lines with
    | (st, some p) => (st, .panicked p)
    | (st, none) => if w.scanErr then (st, .fatal) else (st, .done)

/-! ## Notions used to state the properties -/

/-- The runes for which `unicode.IsSpace` holds. -/
def spaceRunes : List Nat :=
  [0x09, 0x0A, 0x0B, 0x0C, 0x0D, 0x20, 0x85, 0xA0, 0x1680, 0x2000, 0x2001, 0x2002, 0x2003,
   0x2004, 0x2005, 0x2006, 0x2007, 0x2008, 0x2009, 0x200A, 0x2028, 0x2029, 0x202F, 0x205F,
   0x3000]

/-- The string starts with the UTF-8 encoding of a white-space rune. -/
def hasLeadingSpace (s : GoString) : Bool :=
  spaceRunes.any (fun r => (encodeRune r).isPrefixOf s)

/-- The string ends with the UTF-8 encoding of a white-space rune. -/
def hasTrailingSpace (s : GoString) : Bool :=
  spaceRunes.any (fun r => (encodeRune r).isSuffixOf s)

/-- The loop of `utf8.ValidString` (the fuel is the length of `s`). -/
def validLoop : Nat → GoString → Bool
  | 0, s => s.isEmpty
  | k + 1, s =>
    if s = [] then true
    else if (decodeRune s).1 = RuneError ∧ (decodeRune s).2 = 1 then false
    else validLoop k (s.drop (decodeRune s).2)

/-- The function `utf8.ValidString`: `s` consists of well-formed UTF-8 sequences
only. -/
def ValidString (s : GoString) : Bool := validLoop s.length s

/-- The keyword in the words of the specification: the name lowercased, every
space replaced by a hyphen, every colon removed, a colon on both ends. -/
def deriveKeyword (tbl : Nat → Nat) (name : GoString) : GoString :=
  [0x3A] ++ (((ToLower tbl name).map (fun b => if b = 0x20 then 0x2D else b)).filter
    (fun b => b != 0x3A)) ++ [0x3A]

/-- An uppercase hexadecimal digit, `0-9` or `A-F`. -/
def isUpperHex (c : Nat) : Bool := (0x30 ≤ c && c ≤ 0x39) || (0x41 ≤ c && c ≤ 0x46)

/-- The value of a hexadecimal digit of either case. -/
def hexValue (c : Nat) : Option Nat :=
  if 0x30 ≤ c ∧ c ≤ 0x39 then some (c - 0x30)
  else if 0x61 ≤ c ∧ c ≤ 0x66 then some (c - 0x61 + 10)
  else if 0x41 ≤ c ∧ c ≤ 0x46 then some (c - 0x41 + 10)
  else none

/-- The bytes that a string of two-digit hexadecimal numbers denotes. -/
def unhex : GoString → Option (List Nat)
  | [] => some []
  | [_] => none
  | hi :: lo :: t =>
    match hexValue hi, hexValue lo, unhex t with
    | some x, some y, some r => some ((x * 16 + y) :: r)
    | _, _, _ => none

/-- The successfully parsed records of a sequence of lines, in input order. -/
def records (lines : List GoString) : List (GoString × GoString) :=
  lines.filterMap (fun raw =>
    match (parseLine raw).2 with
    | .ok (some p) => some p
    | _ => none)

/-- The archive entry of a snippet: the file name and the document `store`
writes. -/
def entryOf (s : snippet) : ZipEntry :=
  { name := s.Snippet.Name ++ lit " [" ++ s.Snippet.UID ++ lit "].json", data := encodeSnippet s }

/-! ### A JSON decoder

The program only encodes; to state what a reader of the archive gets back, a
decoder for JSON texts (RFC 8259) made of objects and strings is given. -/

/-- A JSON value: a string or an object (its members in document order). -/
inductive JSON
  /-- A string, its content as UTF-8 bytes. -/
  | str (s : GoString)
  /-- An object. -/
  | obj (members : List (GoString × JSON))

/-- The number written by four hexadecimal digits. -/
def hex4 (a b c d : Nat) : Option Nat :=
  match hexValue a, hexValue b, hexValue c, hexValue d with
  | some x, some y, some z, some w => some (((x * 16 + y) * 16 + z) * 16 + w)
  | _, _, _, _ => none

/-- The byte that a two-character escape stands for. -/
def unescape (e : Nat) : Option Nat :=
  if e = 0x22 then some 0x22
  else if e = 0x5C then some 0x5C
  else if e = 0x2F then some 0x2F
  else if e = 0x62 then some 0x08
  else if e = 0x66 then some 0x0C
  else if e = 0x6E then some 0x0A
  else if e = 0x72 then some 0x0D
  else if e = 0x74 then some 0x09
  else none

/-- What a pending high surrogate that found no partner contributes: U+FFFD. -/
def pending (hi : Option Nat) : GoString :=
  match hi with
  | some _ => encodeRune RuneError
  | none => []

/-- Decoding of a JSON string after its opening quote: the content and the
input after the closing quote.  An escape `\uXXXX` gives the UTF-8 encoding of
the code point; a high surrogate is kept in `hi` until the next token, with a
low surrogate right after it it makes one code point, alone it makes U+FFFD; an
unescaped control character is an error. -/
def decodeStringBody : Option Nat → GoString → Option (GoString × GoString)
  | _, [] => none
  | hi, b :: t =>
    if b = 0x22 then some (pending hi, t)
    else if b = 0x5C then
      match t with
      | [] => none
      | e :: t1 =>
        if e = 0x75 then
          match t1 with
          | h1 :: h2 :: h3 :: h4 :: t2 =>
            match hex4 h1 h2 h3 h4 with
            | none => none
            | some u =>
              match hi with
              | some h =>
                if 0xDC00 ≤ u ∧ u < 0xE000 then
                  (decodeStringBody none t2).map (fun p =>
                    (encodeRune (0x10000 + (h - 0xD800) * 1024 + (u - 0xDC00)) ++ p.1, p.2))
                else if 0xD800 ≤ u ∧ u < 0xDC00 then
                  (decodeStringBody (some u) t2).map (fun p =>
                    (encodeRune RuneError ++ p.1, p.2))
                else
                  (decodeStringBody none t2).map (fun p =>
                    (encodeRune RuneError ++ encodeRune u ++ p.1, p.2))
              | none =>
                if 0xD800 ≤ u ∧ u < 0xDC00 then decodeStringBody (some u) t2
                else (decodeStringBody none t2).map (fun p => (encodeRune u ++ p.1, p.2))
          | _ => none
        else
          match unescape e with
          | none => none
          | some c => (decodeStringBody none t1).map (fun p => (pending hi ++ c :: p.1, p.2))
    else if b < 0x20 then none
    else (decodeStringBody none t).map (fun p => (pending hi ++ b :: p.1, p.2))

/-- Insignificant white space in front of a token is dropped. -/
def skipWS : GoString → GoString
  | [] => []
  | b :: t => if b = 0x20 ∨ b = 0x09 ∨ b = 0x0A ∨ b = 0x0D then skipWS t else b :: t

mutual
/-- Decoding of a JSON value (a string or an object) in front of the input;
the fuel bounds the number of values and members. -/
def decodeValue : Nat → GoString → Option (JSON × GoString)
  | 0, _ => none
  | f + 1, s =>
    match skipWS s with
    | 0x22 :: t => (decodeStringBody none t).map (fun p => (JSON.str p.1, p.2))
    | 0x7B :: t =>
      match skipWS t with
      | 0x7D :: r => some (JSON.obj [], r)
      | _ => (decodeMembers f t).map (fun p => (JSON.obj p.1, p.2))
    | _ => none
/-- Decoding of the members of an object up to and including its closing
brace. -/
def decodeMembers : Nat → GoString → Option (List (GoString × JSON) × GoString)
  | 0, _ => none
  | f + 1, s =>
    match skipWS s with
    | 0x22 :: t =>
      match decodeStringBody none t with
      | none => none
      | some (key, r) =>
        match skipWS r with
        | 0x3A :: r1 =>
          match decodeValue f r1 with
          | none => none
          | some (v, r2) =>
            match skipWS r2 with
            | 0x2C :: r3 => (decodeMembers f r3).map (fun p => ((key, v) :: p.1, p.2))
            | 0x7D :: r3 => some ([(key, v)], r3)
            | _ => none
        | _ => none
    | _ => none
end

/-- Decoding of a JSON text: one value, white space around it, nothing else. -/
def decodeJSON (s : GoString) : Option JSON :=
  match decodeValue s.length s with
  | some (v, r) => if skipWS r = [] then some v else none
  | none => none

/-! ## Runs and notions used in the examples -/

/-- A string that is the concatenation of encodings of Unicode scalar values. -/
def Encoded (s : GoString) : Prop :=
  ∃ rs : List Nat, (∀ r ∈ rs, ValidRune r) ∧ s = rs.flatMap encodeRune

/-- The entries a fault-free run appends for a list of records, the first one
built with the random read number `c`. -/
def entriesFrom (tbl : Nat → Nat) (w : World) : Nat → List (GoString × GoString) → List ZipEntry
  | _, [] => []
  | c, (emoji, name) :: rest =>
    entryOf { Snippet := { Snippet := emoji, UID := uuidFormat (w.rand c).b, Name := name,
                           Keyword := deriveKeyword tbl name } } :: entriesFrom tbl w (c + 1) rest

/-- A successful random read of sixteen zero bytes. -/
def zeroRead : RandRead := { b := List.replicate 16 0, n := 16, err := false }

/-- The three-line run of the end-to-end scenario: a comment line, a
fully-qualified line whose payload has no space, a well-formed line; every
random read and every store succeeds. -/
def skipScenario : World :=
  { createErr := false, getErr := false,
    lines := [lit "# group: Smileys & Emotion",
              lit "1F600; fully-qualified  # 😀",
              lit "1F601; fully-qualified  # 😁 beaming face"],
    scanErr := false,
    rand := fun _ => { b := List.replicate 16 0, n := 16, err := false },
    fault := fun _ => StoreFault.none }

/-- A run over one well-formed line in which the random source fails. -/
def entropyFailure : World :=
  { createErr := false, getErr := false,
    lines := [lit "1F600; fully-qualified  # 😀 grinning face"],
    scanErr := false,
    rand := fun _ => { b := List.replicate 16 0, n := 0, err := true },
    fault := fun _ => StoreFault.none }

/-- A run over four lines, two of them data lines, in which every random read
and every store succeeds. -/
def smallRun : World :=
  { createErr := false, getErr := false,
    lines := [lit "# group: Smileys & Emotion",
              lit "1F600; fully-qualified  # 😀 grinning face",
              lit "",
              lit "1F601; fully-qualified  # 😁 beaming face"],
    scanErr := false,
    rand := fun i => { b := List.replicate 16 i, n := 16, err := false },
    fault := fun _ => StoreFault.none }

/-! ## Theorems

### String literals, prefixes and `strings.Index` -/

theorem lit_nil : lit "" = [] := rfl
theorem lit_hash : lit "#" = [0x23] := rfl
theorem lit_space : lit " " = [0x20] := rfl
theorem lit_marker : lit "# " = [0x23, 0x20] := rfl
theorem lit_fq : lit "; fully-qualified" = [0x3B, 0x20, 0x66, 0x75, 0x6C, 0x6C, 0x79, 0x2D, 0x71, 0x75, 0x61, 0x6C, 0x69, 0x66, 0x69, 0x65, 0x64] := rfl

theorem HasPrefix_iff (s p : GoString) : HasPrefix s p = true ↔ p <+: s := by
  unfold HasPrefix
  rw [List.prefix_iff_eq_take, beq_iff_eq]
  exact eq_comm

theorem indexOf_eq_none (sep s : GoString) : indexOf sep s = none ↔ ¬ sep <:+: s := by
  induction s with
  | nil =>
    simp only [indexOf]
    by_cases h : HasPrefix [] sep = true
    · simp only [h, if_true]
      have := (HasPrefix_iff [] sep).1 h
      simp [List.prefix_nil.1 this]
    · simp only [h]
      simp only [HasPrefix_iff] at h
      simp [List.infix_nil, List.prefix_nil] at h ⊢
      exact h
  | cons c t ih =>
    simp only [indexOf]
    by_cases h : HasPrefix (c :: t) sep = true
    · simp only [h, if_true]
      have := (HasPrefix_iff _ _).1 h
      simp [this.isInfix]
    · simp only [h]
      simp only [HasPrefix_iff] at h
      simp [List.infix_cons_iff, h, ih]

theorem indexOf_head_not_mem (c : Nat) (sep' pre rest : GoString) (h : c ∉ pre) :
    indexOf (c :: sep') (pre ++ (c :: sep') ++ rest) = some pre.length := by
  induction pre with
  | nil =>
    have : HasPrefix ((c :: sep') ++ rest) (c :: sep') = true := by
      rw [HasPrefix_iff]; exact List.prefix_append _ _
    simp only [List.nil_append, List.length_nil]
    rw [List.cons_append] at this ⊢
    simp [indexOf, this]
  | cons x pre ih =>
    have hx : x ≠ c := fun e => h (by simp [e])
    have hp : c ∉ pre := fun e => h (by simp [e])
    have : HasPrefix (x :: (pre ++ (c :: sep') ++ rest)) (c :: sep') = false := by
      rw [Bool.eq_false_iff, ne_eq, HasPrefix_iff]
      intro hpre
      obtain ⟨t, ht⟩ := hpre
      simp at ht
      exact hx ht.1.symm
    simp only [List.cons_append, List.append_assoc] at this ⊢
    simp only [indexOf, this]
    have ih' := ih hp
    simp only [List.append_assoc, List.cons_append] at ih'
    simp [ih']

/-- A rune that `decodeRune` accepts is a Unicode scalar value, and the string
starts with its encoding. -/
theorem decodeRune_sound (s : GoString) (hs : s ≠ [])
    (h : ¬ ((decodeRune s).1 = RuneError ∧ (decodeRune s).2 = 1)) :
    s = encodeRune (decodeRune s).1 ++ s.drop (decodeRune s).2 ∧
      (encodeRune (decodeRune s).1).length = (decodeRune s).2 ∧
      ValidRune (decodeRune s).1 := by
  rcases s with _ | ⟨s0, t⟩
  · exact absurd rfl hs
  · by_cases h1 : s0 < 0x80
    · have hd : decodeRune (s0 :: t) = (s0, 1) := by simp [decodeRune, h1]
      have e1 : s0 ≤ 0x7F := by omega
      rw [hd]; simp [encodeRune, e1, ValidRune]; omega
    by_cases h2 : s0 < 0xC2
    · simp [decodeRune, h1, h2] at h
    by_cases h3 : s0 < 0xE0
    · rcases t with _ | ⟨s1, t⟩
      · simp [decodeRune, h1, h2, h3] at h
      · by_cases c1 : isCont s1 = true
        · have hd : decodeRune (s0 :: s1 :: t) = (s0 % 32 * 64 + s1 % 64, 2) := by
            simp [decodeRune, h1, h2, h3, c1]
          simp only [isCont, Bool.and_eq_true, decide_eq_true_eq] at c1
          have e1 : ¬ (s0 % 32 * 64 + s1 % 64 ≤ 0x7F) := by omega
          have e2 : s0 % 32 * 64 + s1 % 64 ≤ 0x7FF := by omega
          rw [hd]
          simp only [encodeRune, e1, e2, if_true, if_false, ValidRune]
          simp
          omega
        · simp [decodeRune, h1, h2, h3, c1] at h
    by_cases h4 : s0 < 0xF0
    · rcases t with _ | ⟨s1, _ | ⟨s2, t⟩⟩
      · simp [decodeRune, h1, h2, h3, h4] at h
      · simp [decodeRune, h1, h2, h3, h4] at h
      · by_cases c1 : (if s0 = 0xE0 then 0xA0 else 0x80) ≤ s1 ∧ s1 ≤ (if s0 = 0xED then 0x9F else 0xBF)
        · by_cases c2 : isCont s2 = true
          · have hd : decodeRune (s0 :: s1 :: s2 :: t) = (s0 % 16 * 4096 + s1 % 64 * 64 + s2 % 64, 3) := by
              simp only [decodeRune, h1, h2, h3, h4, c1, c2, if_true, if_false, and_self]
            simp only [isCont, Bool.and_eq_true, decide_eq_true_eq] at c2
            have c1a : 0x80 ≤ s1 ∧ s1 ≤ 0xBF := by
              obtain ⟨a, b⟩ := c1
              split_ifs at a b <;> omega
            have c1b : s0 = 0xE0 → 0xA0 ≤ s1 := by
              intro e; simp only [e, if_true] at c1; exact c1.1
            have c1c : s0 = 0xED → s1 ≤ 0x9F := by
              intro e; simp only [e, if_true] at c1; exact c1.2
            have e1 : ¬ (s0 % 16 * 4096 + s1 % 64 * 64 + s2 % 64 ≤ 0x7F) := by omega
            have e2 : ¬ (s0 % 16 * 4096 + s1 % 64 * 64 + s2 % 64 ≤ 0x7FF) := by omega
            have e3 : ¬ (0x10FFFF < s0 % 16 * 4096 + s1 % 64 * 64 + s2 % 64 ∨
                (0xD800 ≤ s0 % 16 * 4096 + s1 % 64 * 64 + s2 % 64 ∧
                  s0 % 16 * 4096 + s1 % 64 * 64 + s2 % 64 ≤ 0xDFFF)) := by omega
            have e4 : s0 % 16 * 4096 + s1 % 64 * 64 + s2 % 64 ≤ 0xFFFF := by omega
            rw [hd]
            simp only [encodeRune, e1, e2, e3, e4, if_true, if_false, ValidRune]
            simp
            omega
          · simp [decodeRune, h1, h2, h3, h4, c1, c2] at h
        · simp [decodeRune, h1, h2, h3, h4, c1] at h
    by_cases h5 : s0 < 0xF5
    · rcases t with _ | ⟨s1, _ | ⟨s2, _ | ⟨s3, t⟩⟩⟩
      · simp [decodeRune, h1, h2, h3, h4, h5] at h
      · simp [decodeRune, h1, h2, h3, h4, h5] at h
      · simp [decodeRune, h1, h2, h3, h4, h5] at h
      · by_cases c1 : (if s0 = 0xF0 then 0x90 else 0x80) ≤ s1 ∧ s1 ≤ (if s0 = 0xF4 then 0x8F else 0xBF)
        · by_cases c2 : isCont s2 = true
          · by_cases c3 : isCont s3 = true
            · have hd : decodeRune (s0 :: s1 :: s2 :: s3 :: t) =
                  (s0 % 8 * 262144 + s1 % 64 * 4096 + s2 % 64 * 64 + s3 % 64, 4) := by
                simp only [decodeRune, h1, h2, h3, h4, h5, c1, c2, c3, if_true, if_false, and_self]
              simp only [isCont, Bool.and_eq_true, decide_eq_true_eq] at c2 c3
              have c1a : 0x80 ≤ s1 ∧ s1 ≤ 0xBF := by
                obtain ⟨a, b⟩ := c1
                split_ifs at a b <;> omega
              have c1b : s0 = 0xF0 → 0x90 ≤ s1 := by
                intro e; simp only [e, if_true] at c1; exact c1.1
              have c1c : s0 = 0xF4 → s1 ≤ 0x8F := by
                intro e; simp only [e, if_true] at c1; exact c1.2
              generalize hr : s0 % 8 * 262144 + s1 % 64 * 4096 + s2 % 64 * 64 + s3 % 64 = r at hd
              have e1 : ¬ (r ≤ 0x7F) := by omega
              have e2 : ¬ (r ≤ 0x7FF) := by omega
              have e3 : ¬ (0x10FFFF < r ∨ (0xD800 ≤ r ∧ r ≤ 0xDFFF)) := by omega
              have e4 : ¬ (r ≤ 0xFFFF) := by omega
              rw [hd]
              simp only [encodeRune, e1, e2, e3, e4, if_true, if_false, ValidRune]
              simp
              omega
            · simp [decodeRune, h1, h2, h3, h4, h5, c1, c2, c3] at h
          · simp [decodeRune, h1, h2, h3, h4, h5, c1, c2] at h
        · simp [decodeRune, h1, h2, h3, h4, h5, c1] at h
    · simp [decodeRune, h1, h2, h3, h4, h5] at h

/-! ### White space and `strings.TrimSpace` -/

theorem IsSpace_iff_mem (r : Nat) : IsSpace r = true ↔ r ∈ spaceRunes := by
  unfold IsSpace spaceRunes
  by_cases h : r ≤ 0xFF
  · simp only [h, if_true, Bool.or_eq_true, decide_eq_true_eq, List.mem_cons, List.mem_singleton,
      List.mem_nil_iff, or_false]
    omega
  · simp only [h, if_false, Bool.or_eq_true, decide_eq_true_eq, List.mem_cons, List.mem_singleton,
      List.mem_nil_iff, or_false, Bool.and_eq_true]
    omega

theorem encodeRune_ascii (r : Nat) (h : r ≤ 0x7F) : encodeRune r = [r] := by
  unfold encodeRune; rw [if_pos h]

theorem IsSpace_RuneError : IsSpace RuneError = false := by decide

/-- A decoded white-space rune is a prefix of the string as its UTF-8 encoding. -/
theorem decodeRune_space_head (s : GoString) (h : IsSpace (decodeRune s).1 = true) :
    encodeRune (decodeRune s).1 <+: s := by
  have hne : (decodeRune s).1 ≠ RuneError := by
    intro e; rw [e, IsSpace_RuneError] at h; exact Bool.noConfusion h
  have hs : s ≠ [] := by
    intro e; subst e; exact hne rfl
  have := (decodeRune_sound s hs (fun hh => hne hh.1)).1
  exact ⟨_, this.symm⟩

theorem trimLeft_fix (s : GoString) (h : hasLeadingSpace s = false) :
    TrimLeftFunc IsSpace s = s := by
  unfold TrimLeftFunc
  rcases s with _ | ⟨b, t⟩
  · rfl
  · simp only [List.length_cons, trimLeftLoop]
    have : IsSpace (decodeRune (b :: t)).1 = false := by
      by_contra hc
      rw [Bool.not_eq_false] at hc
      have hp := decodeRune_space_head _ hc
      have hm := (IsSpace_iff_mem _).1 hc
      unfold hasLeadingSpace at h
      rw [List.any_eq_false] at h
      have := h _ hm
      rw [List.isPrefixOf_iff_prefix] at this
      exact this hp
    simp [this]

theorem scanBack_le (s : GoString) (lim k : Nat) : scanBack s lim k ≤ k := by
  induction k with
  | zero => simp [scanBack]
  | succ k ih =>
    simp only [scanBack]
    split_ifs <;> omega

theorem getD_last (s : GoString) (hs : s ≠ []) :
    s = s.dropLast ++ [s.getD (s.length - 1) 0] := by
  have h1 := List.dropLast_append_getLast hs
  have h2 : s.getLast hs = s.getD (s.length - 1) 0 := by
    rw [List.getLast_eq_getElem, List.getD_eq_getElem?_getD, List.getElem?_eq_getElem (by
      have := List.length_pos.2 hs; omega)]
    rfl
  rw [← h2]; exact h1.symm

/-- A decoded trailing white-space rune is a suffix of the string as its UTF-8 encoding. -/
theorem decodeLastRune_space_tail (s : GoString) (h : IsSpace (decodeLastRune s).1 = true) :
    encodeRune (decodeLastRune s).1 <:+ s := by
  unfold decodeLastRune at h ⊢
  by_cases h0 : s.length = 0
  · simp only [h0, if_true] at h
    rw [IsSpace_RuneError] at h; exact Bool.noConfusion h
  · simp only [h0, if_false] at h ⊢
    have hs : s ≠ [] := by intro e; subst e; exact h0 rfl
    by_cases h1 : s.getD (s.length - 1) 0 < 0x80
    · simp only [h1, if_true] at h ⊢
      have e1 : s.getD (s.length - 1) 0 ≤ 0x7F := by omega
      rw [encodeRune_ascii _ e1]
      exact ⟨s.dropLast, (getD_last s hs).symm⟩
    · simp only [h1, if_false] at h ⊢
      by_cases h2 : scanBack s (s.length - 4) (s.length - 1) +
          (decodeRune (s.drop (scanBack s (s.length - 4) (s.length - 1)))).2 ≠ s.length
      · rw [if_pos h2] at h
        rw [IsSpace_RuneError] at h; exact Bool.noConfusion h
      · rw [if_neg h2] at h ⊢
        rw [ne_eq, not_not] at h2
        have hp := decodeRune_space_head _ h
        obtain ⟨u, hu⟩ := hp
        have hne : (decodeRune (s.drop (scanBack s (s.length - 4) (s.length - 1)))).1 ≠ RuneError := by
          intro e; rw [e, IsSpace_RuneError] at h; exact Bool.noConfusion h
        have hd : s.drop (scanBack s (s.length - 4) (s.length - 1)) ≠ [] := by
          intro e; rw [e] at hne; exact hne rfl
        have hsnd := decodeRune_sound _ hd (fun hh => hne hh.1)
        have hdd : List.drop (decodeRune (s.drop (scanBack s (s.length - 4) (s.length - 1)))).2
            (s.drop (scanBack s (s.length - 4) (s.length - 1))) = [] := by
          rw [List.drop_drop, List.drop_eq_nil_iff]
          omega
        rw [hdd, List.append_nil] at hsnd
        rw [← hsnd.1]
        exact List.drop_suffix _ _

theorem trimRight_fix (s : GoString) (h : hasTrailingSpace s = false) :
    TrimRightFunc IsSpace s = s := by
  unfold TrimRightFunc
  rcases s with _ | ⟨b, t⟩
  · rfl
  · simp only [List.length_cons, trimRightLoop]
    have : IsSpace (decodeLastRune (b :: t)).1 = false := by
      by_contra hc
      rw [Bool.not_eq_false] at hc
      have hp := decodeLastRune_space_tail _ hc
      have hm := (IsSpace_iff_mem _).1 hc
      unfold hasTrailingSpace at h
      rw [List.any_eq_false] at h
      have := h _ hm
      rw [List.isSuffixOf_iff_suffix] at this
      exact this hp
    simp [this]

theorem TrimSpace_fix (s : GoString) (h1 : hasLeadingSpace s = false)
    (h2 : hasTrailingSpace s = false) : TrimSpace s = s := by
  unfold TrimSpace
  rw [trimLeft_fix s h1, trimRight_fix s h2]

theorem prefix_append_cons (enc cp rest : GoString) (b : Nat)
    (h : enc <+: cp ++ b :: rest) : enc <+: cp ∨ b ∈ enc := by
  induction cp generalizing enc with
  | nil =>
    rcases enc with _ | ⟨x, e⟩
    · exact Or.inl (List.prefix_refl _)
    · right
      rw [List.nil_append, List.cons_prefix_cons] at h
      simp [h.1]
  | cons c cp ih =>
    rcases enc with _ | ⟨x, e⟩
    · exact Or.inl (List.nil_prefix)
    · rw [List.cons_append, List.cons_prefix_cons] at h
      rcases ih e h.2 with h' | h'
      · left; rw [List.cons_prefix_cons]; exact ⟨h.1, h'⟩
      · right; simp [h']

theorem suffix_append_cons (enc pre n : GoString) (b : Nat)
    (h : enc <:+ pre ++ b :: n) : enc <:+ n ∨ b ∈ enc := by
  have h' : enc.reverse <+: n.reverse ++ b :: pre.reverse := by
    have := List.reverse_prefix.2 h
    simpa using this
  rcases prefix_append_cons _ _ _ _ h' with h1 | h1
  · left; exact List.reverse_prefix.1 h1
  · right; simpa using h1

theorem spaceRunes_no_semicolon : ∀ r ∈ spaceRunes, 0x3B ∉ encodeRune r := by decide

theorem spaceRunes_space : ∀ r ∈ spaceRunes, 0x20 ∈ encodeRune r → encodeRune r = [0x20] := by
  decide

theorem hasLeadingSpace_append (cp rest : GoString) (h : hasLeadingSpace cp = false) :
    hasLeadingSpace (cp ++ 0x3B :: rest) = false := by
  unfold hasLeadingSpace at h ⊢
  rw [List.any_eq_false] at h ⊢
  intro r hr hp
  rw [List.isPrefixOf_iff_prefix] at hp
  rcases prefix_append_cons _ _ _ _ hp with h1 | h1
  · exact h r hr (List.isPrefixOf_iff_prefix.2 h1)
  · exact spaceRunes_no_semicolon r hr h1

theorem hasTrailingSpace_append (pre n : GoString) (hn : n ≠ [])
    (h : hasTrailingSpace n = false) : hasTrailingSpace (pre ++ 0x20 :: n) = false := by
  unfold hasTrailingSpace at h ⊢
  rw [List.any_eq_false] at h ⊢
  intro r hr hp
  rw [List.isSuffixOf_iff_suffix] at hp
  rcases suffix_append_cons _ _ _ _ hp with h1 | h1
  · exact h r hr (List.isSuffixOf_iff_suffix.2 h1)
  · have e := spaceRunes_space r hr h1
    rw [e] at hp
    have hsuf : n <:+ pre ++ 0x20 :: n := ⟨pre ++ [0x20], by simp⟩
    have hlen : ([0x20] : GoString).length ≤ n.length := by
      have := List.length_pos.2 hn
      simpa using this
    have := List.suffix_of_suffix_length_le hp hsuf hlen
    apply h r hr
    rw [e]
    exact List.isSuffixOf_iff_suffix.2 this

/-! ### The parsing step -/

theorem parseLine_reject (raw : GoString)
    (h : HasPrefix (TrimSpace raw) (lit "#") = true ∨ TrimSpace raw = [] ∨
      Contains (TrimSpace raw) (lit "; fully-qualified") = false) :
    parseLine raw = ([], .ok none) := by
  unfold parseLine
  have : (HasPrefix (TrimSpace raw) (lit "#") || TrimSpace raw == lit "" ||
      !Contains (TrimSpace raw) (lit "; fully-qualified")) = true := by
    rcases h with h | h | h
    · simp [h]
    · simp [h, lit_nil]
    · simp [h]
  simp only [this, if_true]

theorem parseLine_pass (raw : GoString)
    (h1 : HasPrefix (TrimSpace raw) (lit "#") = false) (h2 : TrimSpace raw ≠ [])
    (h3 : Contains (TrimSpace raw) (lit "; fully-qualified") = true) :
    parseLine raw =
      match sliceFrom (TrimSpace raw) (Index (TrimSpace raw) (lit "# ") + 2) with
      | .error p => ([], .error p)
      | .ok payload =>
        match (SplitN payload (lit " ") 2)[0]?, (SplitN payload (lit " ") 2)[1]? with
        | none, _ => (if (SplitN payload (lit " ") 2).length ≠ 2 then [LogLine.skipping (TrimSpace raw)] else [],
            .error (.indexOutOfRange 0 (SplitN payload (lit " ") 2).length))
        | some _, none => (if (SplitN payload (lit " ") 2).length ≠ 2 then [LogLine.skipping (TrimSpace raw)] else [],
            .error (.indexOutOfRange 1 (SplitN payload (lit " ") 2).length))
        | some emoji, some name => (if (SplitN payload (lit " ") 2).length ≠ 2 then [LogLine.skipping (TrimSpace raw)] else [],
            .ok (some (emoji, name))) := by
  unfold parseLine
  have : (HasPrefix (TrimSpace raw) (lit "#") || TrimSpace raw == lit "" ||
      !Contains (TrimSpace raw) (lit "; fully-qualified")) = false := by
    simp [h1, h2, h3, lit_nil]
  simp only [this]
  rfl

theorem SplitN_two (payload : GoString) :
    SplitN payload (lit " ") 2 =
      match indexOf [0x20] payload with
      | none => [payload]
      | some m => [payload.take m, payload.drop (m + 1)] := by
  unfold SplitN
  simp only [lit_space]
  simp only [splitLoop, OfNat.ofNat_ne_zero, if_false, List.cons_ne_nil, List.length_singleton]

theorem Contains_iff (s sub : GoString) : Contains s sub = true ↔ sub <:+: s := by
  unfold Contains Index
  cases h : indexOf sub s with
  | none =>
    have := (indexOf_eq_none sub s).1 h
    simp [this]
  | some i =>
    have : ¬ indexOf sub s = none := by rw [h]; simp
    rw [indexOf_eq_none, not_not] at this
    simp [this]

theorem Index_eq_neg_one (s sub : GoString) (h : ¬ sub <:+: s) : Index s sub = -1 := by
  unfold Index
  rw [(indexOf_eq_none sub s).2 h]

theorem drop_marker (A P : GoString) : List.drop (A.length + 2) (A ++ [0x23, 0x20] ++ P) = P := by
  have : A.length + 2 = (A ++ [0x23, 0x20]).length := by simp
  rw [this, List.drop_left]

/-- Claim C1. For every line `cp ++ "; fully-qualified" ++ spaces ++ "# " ++ d ++ " " ++ n`,
where `cp` holds no `#` and has no leading white space, `d` holds no space and
`n` is non-empty without trailing white space, the parsing step of `main` yields
exactly the record with display form `d` and name `n`, and logs nothing. -/
theorem parseLine_wellformed (cp d n : GoString) (k : Nat)
    (hcp : 0x23 ∉ cp) (hlead : hasLeadingSpace cp = false) (hd : 0x20 ∉ d)
    (hn : n ≠ []) (htrail : hasTrailingSpace n = false) :
    parseLine (cp ++ lit "; fully-qualified" ++ List.replicate k 0x20 ++ lit "# " ++ d ++ lit " " ++ n)
      = ([], .ok (some (d, n))) := by
  -- the line is its own trimmed form
  have hshape1 : cp ++ lit "; fully-qualified" ++ List.replicate k 0x20 ++ lit "# " ++ d ++ lit " " ++ n
      = cp ++ 0x3B :: ((lit "; fully-qualified").drop 1 ++ List.replicate k 0x20 ++ lit "# " ++ d ++ lit " " ++ n) := by
    simp [lit_fq]
  have hshape2 : cp ++ lit "; fully-qualified" ++ List.replicate k 0x20 ++ lit "# " ++ d ++ lit " " ++ n
      = (cp ++ lit "; fully-qualified" ++ List.replicate k 0x20 ++ lit "# " ++ d) ++ 0x20 :: n := by
    simp [lit_space]
  have hshape3 : cp ++ lit "; fully-qualified" ++ List.replicate k 0x20 ++ lit "# " ++ d ++ lit " " ++ n
      = (cp ++ lit "; fully-qualified" ++ List.replicate k 0x20) ++ (0x23 :: [0x20]) ++ (d ++ lit " " ++ n) := by
    simp [lit_marker]
  generalize hl : cp ++ lit "; fully-qualified" ++ List.replicate k 0x20 ++ lit "# " ++ d ++ lit " " ++ n = l
    at hshape1 hshape2 hshape3
  have htrim : TrimSpace l = l := by
    apply TrimSpace_fix
    · rw [hshape1]; exact hasLeadingSpace_append _ _ hlead
    · rw [hshape2]; exact hasTrailingSpace_append _ _ hn htrail
  have hne : l ≠ [] := by rw [hshape1]; simp
  have hpre : HasPrefix l (lit "#") = false := by
    rw [Bool.eq_false_iff, ne_eq, HasPrefix_iff, lit_hash]
    intro h
    rw [hshape1] at h
    rcases prefix_append_cons _ _ _ _ h with h1 | h1
    · obtain ⟨t, ht⟩ := h1
      exact hcp (by rw [← ht]; simp)
    · simp at h1
  have hcont : Contains l (lit "; fully-qualified") = true := by
    rw [Contains_iff, ← hl]
    exact ⟨cp, List.replicate k 0x20 ++ lit "# " ++ d ++ lit " " ++ n, by simp⟩
  have hidx : indexOf (lit "# ") l = some (cp ++ lit "; fully-qualified" ++ List.replicate k 0x20).length := by
    rw [hshape3, lit_marker]
    apply indexOf_head_not_mem
    simp only [List.mem_append, not_or]
    refine ⟨⟨hcp, by rw [lit_fq]; decide⟩, ?_⟩
    intro h
    have := List.eq_of_mem_replicate h
    omega
  have hslice : sliceFrom l (Index l (lit "# ") + 2) = .ok (d ++ lit " " ++ n) := by
    unfold Index sliceFrom
    rw [hidx]
    have hlen : l.length = (cp ++ lit "; fully-qualified" ++ List.replicate k 0x20).length + 2 + (d ++ lit " " ++ n).length := by
      rw [hshape3]; simp; omega
    have e : ((((cp ++ lit "; fully-qualified" ++ List.replicate k 0x20).length : Nat) : Int) + 2) =
        (((cp ++ lit "; fully-qualified" ++ List.replicate k 0x20).length + 2 : Nat) : Int) := by
      push_cast; rfl
    simp only [e, Int.toNat_ofNat]
    rw [if_pos (by constructor <;> omega)]
    congr 1
    rw [hshape3]
    exact drop_marker _ _
  have hsplit : SplitN (d ++ lit " " ++ n) (lit " ") 2 = [d, n] := by
    rw [SplitN_two, lit_space]
    have := indexOf_head_not_mem 0x20 [] d n hd
    rw [this]
    simp
  rw [parseLine_pass l (by rw [htrim]; exact hpre) (by rw [htrim]; exact hne)
    (by rw [htrim]; exact hcont), htrim, hslice]
  simp only [hsplit]
  rfl

theorem indexOf_single (c : Nat) (s : GoString) (m : Nat) (h : indexOf [c] s = some m) :
    s = s.take m ++ c :: s.drop (m + 1) ∧ c ∉ s.take m := by
  induction s generalizing m with
  | nil =>
    simp [indexOf, HasPrefix] at h
  | cons x t ih =>
    simp only [indexOf] at h
    by_cases hp : HasPrefix (x :: t) [c] = true
    · rw [if_pos hp] at h
      cases h
      have := (HasPrefix_iff _ _).1 hp
      rw [List.cons_prefix_cons] at this
      simp [this.1]
    · rw [if_neg hp] at h
      have hx : x ≠ c := by
        intro e
        apply hp
        rw [HasPrefix_iff, e, List.cons_prefix_cons]
        exact ⟨rfl, List.nil_prefix⟩
      cases hi : indexOf [c] t with
      | none => rw [hi] at h; cases h
      | some i =>
        rw [hi] at h
        simp only [Option.map_some', Option.some.injEq] at h
        subst h
        obtain ⟨a, b⟩ := ih i hi
        constructor
        · simp only [List.take_succ_cons, List.drop_succ_cons, List.cons_append]
          rw [← a]
        · simp only [List.take_succ_cons, List.mem_cons, not_or]
          exact ⟨fun e => hx e.symm, b⟩

theorem decodeLastRune_width (s : GoString) (hs : s ≠ []) : 1 ≤ (decodeLastRune s).2 := by
  unfold decodeLastRune
  have h0 : ¬ s.length = 0 := by
    intro e; exact hs (List.length_eq_zero.1 e)
  rw [if_neg h0]
  by_cases h1 : s.getD (s.length - 1) 0 < 0x80
  · simp only [h1, if_true]; exact Nat.le_refl _
  · simp only [h1, if_false]
    by_cases h2 : scanBack s (s.length - 4) (s.length - 1) +
          (decodeRune (s.drop (scanBack s (s.length - 4) (s.length - 1)))).2 ≠ s.length
    · rw [if_pos h2]
    · rw [if_neg h2]
      rw [ne_eq, not_not] at h2
      have := scanBack_le s (s.length - 4) (s.length - 1)
      have := List.length_pos.2 hs
      omega

theorem trimRightLoop_spec (f : Nat → Bool) (k : Nat) (s : GoString) (h : s.length ≤ k) :
    trimRightLoop f k s = [] ∨ f (decodeLastRune (trimRightLoop f k s)).1 = false := by
  induction k generalizing s with
  | zero =>
    left
    have : s = [] := List.length_eq_zero.1 (Nat.le_zero.1 h)
    subst this; rfl
  | succ k ih =>
    simp only [trimRightLoop]
    by_cases hs : s = []
    · simp [hs]
    · rw [if_neg hs]
      by_cases hf : f (decodeLastRune s).1 = true
      · rw [if_pos hf]
        apply ih
        have := decodeLastRune_width s hs
        rw [List.length_take]
        have := List.length_pos.2 hs
        omega
      · rw [if_neg hf]
        right
        simpa using hf

theorem TrimSpace_no_trailing_space (s : GoString) : ¬ [0x20] <:+ TrimSpace s := by
  intro h
  unfold TrimSpace TrimRightFunc at h
  generalize ht : trimRightLoop IsSpace (TrimLeftFunc IsSpace s).length (TrimLeftFunc IsSpace s) = t at h
  have hspec := trimRightLoop_spec IsSpace _ (TrimLeftFunc IsSpace s) (Nat.le_refl _)
  rw [ht] at hspec
  obtain ⟨u, hu⟩ := h
  rcases hspec with h1 | h1
  · rw [h1] at hu; simp at hu
  · have hlast : decodeLastRune t = (0x20, 1) := by
      rw [← hu]
      unfold decodeLastRune
      simp
    rw [hlast] at h1
    exact Bool.noConfusion h1

/-- Claim C2. A line whose trimmed form is empty, or starts with `#`, or does not
contain `; fully-qualified` gives no record, no log line and no panic; the loop
body leaves the state as it is, and the loop goes on with the following lines
as if the line were absent. -/
theorem parseLine_filtered (raw : GoString)
    (h : TrimSpace raw = [] ∨ (TrimSpace raw).head? = some 0x23 ∨
      ¬ lit "; fully-qualified" <:+: TrimSpace raw) :
    parseLine raw = ([], .ok none) ∧
      ∀ (tbl : Nat → Nat) (w : World) (st : State) (rest : List GoString),
        processLine tbl w st raw = (st, none) ∧
        mainLoop tbl w st (raw :: rest) = mainLoop tbl w st rest := by
  have hp : parseLine raw = ([], .ok none) := by
    apply parseLine_reject
    rcases h with h | h | h
    · exact Or.inr (Or.inl h)
    · left
      rw [HasPrefix_iff, lit_hash]
      cases hl : TrimSpace raw with
      | nil => rw [hl] at h; cases h
      | cons x t =>
        rw [hl] at h
        simp only [List.head?_cons, Option.some.injEq] at h
        rw [h, List.cons_prefix_cons]
        exact ⟨rfl, List.nil_prefix⟩
    · right; right
      rw [Bool.eq_false_iff, ne_eq, Contains_iff]
      exact h
  refine ⟨hp, ?_⟩
  intro tbl w st rest
  have hproc : processLine tbl w st raw = (st, none) := by
    unfold processLine
    rw [hp]
    simp
  exact ⟨hproc, by simp only [mainLoop, hproc]⟩

theorem HasPrefix_hash_false (l : GoString) (h : l.head? ≠ some 0x23) :
    HasPrefix l (lit "#") = false := by
  rw [Bool.eq_false_iff, ne_eq, HasPrefix_iff, lit_hash]
  intro hp
  obtain ⟨t, ht⟩ := hp
  apply h
  rw [← ht]; rfl

theorem sliceFrom_drop (l : GoString) (i : Int) (p : GoString) (h : sliceFrom l i = .ok p) :
    p <:+ l := by
  unfold sliceFrom at h
  split_ifs at h
  cases h
  exact List.drop_suffix _ _

/-- Claim C10. For a line that passes the filter and whose trimmed form holds no
`"# "`, the slice expression is in bounds and gives the trimmed line without
its first byte; this payload holds a space, is split at the first one, and the
two parts are the record. -/
theorem parseLine_no_marker (raw : GoString)
    (h0 : TrimSpace raw ≠ []) (h1 : (TrimSpace raw).head? ≠ some 0x23)
    (h2 : lit "; fully-qualified" <:+: TrimSpace raw) (h3 : ¬ lit "# " <:+: TrimSpace raw) :
    sliceFrom (TrimSpace raw) (Index (TrimSpace raw) (lit "# ") + 2) = .ok ((TrimSpace raw).drop 1) ∧
    ∃ a b, (TrimSpace raw).drop 1 = a ++ 0x20 :: b ∧ 0x20 ∉ a ∧
      SplitN ((TrimSpace raw).drop 1) (lit " ") 2 = [a, b] ∧
      parseLine raw = ([], .ok (some (a, b))) := by
  generalize hl : TrimSpace raw = l at *
  have hslice : sliceFrom l (Index l (lit "# ") + 2) = .ok (l.drop 1) := by
    rw [Index_eq_neg_one l _ h3]
    unfold sliceFrom
    have hlen := List.length_pos.2 h0
    rw [if_pos (by constructor <;> omega)]
    rfl
  refine ⟨hslice, ?_⟩
  have hinf : [0x20] <:+: l.drop 1 := by
    obtain ⟨A, B, hAB⟩ := h2
    rw [← hAB, lit_fq]
    rcases A with _ | ⟨a0, A⟩
    · exact ⟨[], [0x66, 0x75, 0x6C, 0x6C, 0x79, 0x2D, 0x71, 0x75, 0x61, 0x6C, 0x69, 0x66, 0x69, 0x65, 0x64] ++ B, by simp⟩
    · exact ⟨A ++ [0x3B], [0x66, 0x75, 0x6C, 0x6C, 0x79, 0x2D, 0x71, 0x75, 0x61, 0x6C, 0x69, 0x66, 0x69, 0x65, 0x64] ++ B, by simp⟩
  cases hi : indexOf [0x20] (l.drop 1) with
  | none => exact absurd hinf ((indexOf_eq_none _ _).1 hi)
  | some m =>
    obtain ⟨e1, e2⟩ := indexOf_single _ _ _ hi
    have hsplit : SplitN (l.drop 1) (lit " ") 2 = [(l.drop 1).take m, (l.drop 1).drop (m + 1)] := by
      rw [SplitN_two, hi]
    refine ⟨(l.drop 1).take m, (l.drop 1).drop (m + 1), e1, e2, hsplit, ?_⟩
    rw [parseLine_pass raw (by rw [hl]; exact HasPrefix_hash_false l h1) (by rw [hl]; exact h0)
      (by rw [hl, Contains_iff]; exact h2), hl, hslice]
    simp only [hsplit]
    rfl

/-- Claim C8, amended. When the parsing step yields a record, the name is
non-empty, the display form holds no space, and display form, one space and
name together are the end of the trimmed line; so the display form is empty
exactly when the payload starts with a space. -/
theorem parseLine_record_name (raw : GoString) (logged : List LogLine) (emoji name : GoString)
    (h : parseLine raw = (logged, .ok (some (emoji, name)))) :
    name ≠ [] ∧ 0x20 ∉ emoji ∧ (emoji ++ 0x20 :: name) <:+ TrimSpace raw := by
  by_cases hrej : HasPrefix (TrimSpace raw) (lit "#") = true ∨ TrimSpace raw = [] ∨
      Contains (TrimSpace raw) (lit "; fully-qualified") = false
  · rw [parseLine_reject raw hrej] at h
    cases h
  · rw [not_or, not_or] at hrej
    obtain ⟨r1, r2, r3⟩ := hrej
    rw [Bool.not_eq_true] at r1
    rw [Bool.not_eq_false] at r3
    rw [parseLine_pass raw r1 r2 r3] at h
    cases hs : sliceFrom (TrimSpace raw) (Index (TrimSpace raw) (lit "# ") + 2) with
    | error p => rw [hs] at h; cases h
    | ok payload =>
      rw [hs] at h
      have hsuf := sliceFrom_drop _ _ _ hs
      simp only [SplitN_two] at h
      cases hi : indexOf [0x20] payload with
      | none => rw [hi] at h; simp at h
      | some m =>
        rw [hi] at h
        simp at h
        obtain ⟨e1, e2⟩ := indexOf_single _ _ _ hi
        obtain ⟨-, ha, hb⟩ := h
        rw [ha, hb] at e1
        rw [ha] at e2
        refine ⟨?_, e2, ?_⟩
        · intro hn
          rw [hn] at e1
          apply TrimSpace_no_trailing_space raw
          refine List.IsSuffix.trans ?_ hsuf
          rw [e1]
          exact ⟨emoji, rfl⟩
        · rw [← e1]; exact hsuf

/-- Claim C1 on the line of the specification. -/
theorem parseLine_wellformed_witness :
    parseLine (lit "1F600; fully-qualified  # 😀 grinning face")
      = ([], Except.ok (some (lit "😀", lit "grinning face"))) :=
  parseLine_wellformed (lit "1F600") (lit "😀") (lit "grinning face") 2
    (by decide) (by decide) (by decide) (by decide) (by decide)

/-- Claim C2 on a comment line. -/
theorem parseLine_filtered_witness :
    parseLine (lit "# subgroup: face-smiling") = ([], Except.ok none) :=
  (parseLine_filtered (lit "# subgroup: face-smiling") (Or.inr (Or.inl (by decide)))).1

/-- Claim C10 on the line `1F600; fully-qualified`. -/
theorem parseLine_no_marker_witness :
    parseLine (lit "1F600; fully-qualified")
      = ([], Except.ok (some (lit "F600;", lit "fully-qualified"))) := by
  obtain ⟨-, a, b, -, -, hs, hp⟩ := parseLine_no_marker (lit "1F600; fully-qualified")
    (by decide) (by decide) ⟨lit "1F600", [], by decide⟩ (by decide)
  have e : SplitN ((TrimSpace (lit "1F600; fully-qualified")).drop 1) (lit " ") 2
      = [lit "F600;", lit "fully-qualified"] := by decide
  rw [e] at hs
  cases hs
  exact hp

/-- Claim C8 as stated fails: the line `1F600; fully-qualified #  grinning face`,
with two spaces behind the `#`, gives a record with an empty display form. -/
theorem parseLine_empty_display_form :
    ¬ ∀ (raw : GoString) (logged : List LogLine) (emoji name : GoString),
        parseLine raw = (logged, Except.ok (some (emoji, name))) → emoji ≠ [] ∧ name ≠ [] := by
  intro h
  exact (h (lit "1F600; fully-qualified #  grinning face") [] [] (lit "grinning face") rfl).1 rfl

/-- Claim C8, amended, on the line of the specification. -/
theorem parseLine_record_name_witness :
    lit "grinning face" ≠ [] ∧ 0x20 ∉ lit "😀" ∧
      (lit "😀" ++ 0x20 :: lit "grinning face") <:+ TrimSpace (lit "1F600; fully-qualified  # 😀 grinning face") :=
  parseLine_record_name (lit "1F600; fully-qualified  # 😀 grinning face") []
    (lit "😀") (lit "grinning face") rfl

/-- Claim C3, evaluated on the three-line scenario: the run logs the second line
as skipped and then ends with the panic `index out of range [1] with length 1`;
the archive has no entry and the third line is never reached. -/
theorem main_skipScenario (tbl : Nat → Nat) :
    main tbl skipScenario =
      ({ log := [LogLine.skipping (lit "1F600; fully-qualified  # 😀")], zip := [],
         reads := 0, stores := 0 },
       Exit.panicked (Panic.indexOutOfRange 1 1)) := rfl

/-! ### The identifier -/

theorem udigit_spec : ∀ d, d < 16 →
    isUpperHex (udigits.getD d 0) = true ∧ hexValue (udigits.getD d 0) = some d := by
  decide

theorem fmtX_spec (b : List Nat) (hb : ∀ x ∈ b, x < 256) :
    (fmtX b).length = 2 * b.length ∧ (∀ c ∈ fmtX b, isUpperHex c = true) ∧
      unhex (fmtX b) = some b := by
  induction b with
  | nil => simp [fmtX, unhex]
  | cons x t ih =>
    have hxlt : x < 256 := hb x (by simp)
    have h1 := udigit_spec (x % 256 / 16) (by omega)
    have h2 := udigit_spec (x % 16) (by omega)
    have ht := ih (fun y hy => hb y (by simp [hy]))
    have e : fmtX (x :: t) = [udigits.getD (x % 256 / 16) 0, udigits.getD (x % 16) 0] ++ fmtX t := by
      simp [fmtX]
    rw [e]
    refine ⟨?_, ?_, ?_⟩
    · simp only [List.length_append, ht.1, List.length_cons, List.length_nil]; omega
    · intro c hc
      simp only [List.mem_append, List.mem_cons, List.mem_singleton, List.not_mem_nil, or_false] at hc
      rcases hc with (hc | hc) | hc
      · rw [hc]; exact h1.1
      · rw [hc]; exact h2.1
      · exact ht.2.1 c hc
    · have : x % 256 / 16 * 16 + x % 16 = x := by omega
      show unhex (udigits.getD (x % 256 / 16) 0 :: udigits.getD (x % 16) 0 :: fmtX t) = some (x :: t)
      simp only [unhex, h1.2, h2.2, ht.2.2, this]

/-- Claim C5. For sixteen bytes `b` the identifier has length 36 and is five
groups of uppercase hexadecimal digits, of lengths 8, 4, 4, 4 and 12, separated
by single hyphens; read back as hexadecimal numbers the groups are the bytes
0-3, 4-5, 6-7, 8-9 and 10-15 of `b`, unchanged. -/
theorem uuidFormat_shape (b : List Nat) (hlen : b.length = 16) (hb : ∀ x ∈ b, x < 256) :
    (uuidFormat b).length = 36 ∧
    ∃ g1 g2 g3 g4 g5 : GoString,
      uuidFormat b = g1 ++ [0x2D] ++ g2 ++ [0x2D] ++ g3 ++ [0x2D] ++ g4 ++ [0x2D] ++ g5 ∧
      g1.length = 8 ∧ g2.length = 4 ∧ g3.length = 4 ∧ g4.length = 4 ∧ g5.length = 12 ∧
      (∀ c ∈ g1 ++ g2 ++ g3 ++ g4 ++ g5, isUpperHex c = true) ∧
      unhex g1 = some (slice b 0 4) ∧ unhex g2 = some (slice b 4 6) ∧
      unhex g3 = some (slice b 6 8) ∧ unhex g4 = some (slice b 8 10) ∧
      unhex g5 = some (slice b 10 16) ∧
      slice b 0 4 ++ slice b 4 6 ++ slice b 6 8 ++ slice b 8 10 ++ slice b 10 16 = b := by
  have hs : ∀ lo hi, ∀ x ∈ slice b lo hi, x < 256 := by
    intro lo hi x hx
    exact hb x (List.mem_of_mem_take (List.mem_of_mem_drop hx))
  have e5 : b.drop 10 = slice b 10 16 := by
    unfold slice
    rw [List.take_of_length_le (by omega)]
  have l1 : (slice b 0 4).length = 4 := by simp [slice, hlen]
  have l2 : (slice b 4 6).length = 2 := by simp [slice, hlen]
  have l3 : (slice b 6 8).length = 2 := by simp [slice, hlen]
  have l4 : (slice b 8 10).length = 2 := by simp [slice, hlen]
  have l5 : (slice b 10 16).length = 6 := by simp [slice, hlen]
  have f1 := fmtX_spec _ (hs 0 4)
  have f2 := fmtX_spec _ (hs 4 6)
  have f3 := fmtX_spec _ (hs 6 8)
  have f4 := fmtX_spec _ (hs 8 10)
  have f5 := fmtX_spec _ (hs 10 16)
  have hdash : lit "-" = [0x2D] := rfl
  have hu : uuidFormat b = fmtX (slice b 0 4) ++ [0x2D] ++ fmtX (slice b 4 6) ++ [0x2D] ++
      fmtX (slice b 6 8) ++ [0x2D] ++ fmtX (slice b 8 10) ++ [0x2D] ++ fmtX (slice b 10 16) := by
    unfold uuidFormat
    rw [e5, hdash]
  refine ⟨?_, fmtX (slice b 0 4), fmtX (slice b 4 6), fmtX (slice b 6 8), fmtX (slice b 8 10),
    fmtX (slice b 10 16), hu, ?_, ?_, ?_, ?_, ?_, ?_, f1.2.2, f2.2.2, f3.2.2, f4.2.2, f5.2.2, ?_⟩
  · rw [hu]
    simp only [List.length_append, f1.1, f2.1, f3.1, f4.1, f5.1, l1, l2, l3, l4, l5,
      List.length_cons, List.length_nil]
  · rw [f1.1, l1]
  · rw [f2.1, l2]
  · rw [f3.1, l3]
  · rw [f4.1, l4]
  · rw [f5.1, l5]
  · intro c hc
    simp only [List.mem_append] at hc
    rcases hc with (((hc | hc) | hc) | hc) | hc
    · exact f1.2.1 c hc
    · exact f2.2.1 c hc
    · exact f3.2.1 c hc
    · exact f4.2.1 c hc
    · exact f5.2.1 c hc
  · unfold slice
    have : b = List.take 16 b := (List.take_of_length_le (by omega)).symm
    simp only [List.drop_zero]
    rcases b with _ | ⟨b0, _ | ⟨b1, _ | ⟨b2, _ | ⟨b3, _ | ⟨b4, _ | ⟨b5, _ | ⟨b6, _ | ⟨b7,
      _ | ⟨b8, _ | ⟨b9, _ | ⟨b10, _ | ⟨b11, _ | ⟨b12, _ | ⟨b13, _ | ⟨b14, _ | ⟨b15, _ | ⟨b16, t⟩⟩⟩⟩⟩⟩⟩⟩⟩⟩⟩⟩⟩⟩⟩⟩⟩ <;>
      simp at hlen ⊢

/-- Claim C5 on sixteen concrete bytes. -/
theorem uuidFormat_shape_witness :
    (uuidFormat [0xDE, 0xAD, 0xBE, 0xEF, 0x00, 0x01, 0x7F, 0x80, 0xFF, 0x10, 0x0A, 0xA0, 0x99, 0x3C, 0xC3, 0x5A]).length = 36 ∧
    uuidFormat [0xDE, 0xAD, 0xBE, 0xEF, 0x00, 0x01, 0x7F, 0x80, 0xFF, 0x10, 0x0A, 0xA0, 0x99, 0x3C, 0xC3, 0x5A]
      = lit "DEADBEEF-0001-7F80-FF10-0AA0993CC35A" :=
  ⟨(uuidFormat_shape _ (by decide) (by decide)).1, by decide⟩

/-- Decoding in front of an encoded Unicode scalar value gives it back. -/
theorem decodeRune_encodeRune (r : Nat) (hr : ValidRune r) (rest : GoString) :
    decodeRune (encodeRune r ++ rest) = (r, (encodeRune r).length) := by
  unfold ValidRune at hr
  by_cases h1 : r ≤ 0x7F
  · rw [encodeRune_ascii r h1]
    have : r < 0x80 := by omega
    simp [decodeRune, this]
  by_cases h2 : r ≤ 0x7FF
  · have e : encodeRune r = [0xC0 + r / 64, 0x80 + r % 64] := by
      unfold encodeRune; rw [if_neg h1, if_pos h2]
    rw [e]
    have a1 : ¬ (0xC0 + r / 64 < 0x80) := by omega
    have a2 : ¬ (0xC0 + r / 64 < 0xC2) := by omega
    have a3 : 0xC0 + r / 64 < 0xE0 := by omega
    have a4 : isCont (0x80 + r % 64) = true := by
      simp only [isCont, Bool.and_eq_true, decide_eq_true_eq]; omega
    simp only [List.cons_append, List.nil_append, decodeRune, a1, a2, a3, a4, if_true, if_false,
      List.length_cons, List.length_nil]
    congr 1
    omega
  have h3 : ¬ (0x10FFFF < r ∨ (0xD800 ≤ r ∧ r ≤ 0xDFFF)) := by omega
  by_cases h4 : r ≤ 0xFFFF
  · have e : encodeRune r = [0xE0 + r / 4096, 0x80 + r / 64 % 64, 0x80 + r % 64] := by
      unfold encodeRune; rw [if_neg h1, if_neg h2, if_neg h3, if_pos h4]
    rw [e]
    have a1 : ¬ (0xE0 + r / 4096 < 0x80) := by omega
    have a2 : ¬ (0xE0 + r / 4096 < 0xC2) := by omega
    have a3 : ¬ (0xE0 + r / 4096 < 0xE0) := by omega
    have a3' : 0xE0 + r / 4096 < 0xF0 := by omega
    have a4 : isCont (0x80 + r % 64) = true := by
      simp only [isCont, Bool.and_eq_true, decide_eq_true_eq]; omega
    have a5 : (if 0xE0 + r / 4096 = 0xE0 then 0xA0 else 0x80) ≤ 0x80 + r / 64 % 64 ∧
        0x80 + r / 64 % 64 ≤ (if 0xE0 + r / 4096 = 0xED then 0x9F else 0xBF) := by
      constructor
      · split_ifs <;> omega
      · split_ifs <;> omega
    simp only [List.cons_append, List.nil_append, decodeRune, a1, a2, a3, a3', a4, a5, if_true,
      if_false, List.length_cons, List.length_nil, and_self]
    congr 1
    omega
  · have e : encodeRune r = [0xF0 + r / 262144, 0x80 + r / 4096 % 64, 0x80 + r / 64 % 64, 0x80 + r % 64] := by
      unfold encodeRune; rw [if_neg h1, if_neg h2, if_neg h3, if_neg h4]
    rw [e]
    have a1 : ¬ (0xF0 + r / 262144 < 0x80) := by omega
    have a2 : ¬ (0xF0 + r / 262144 < 0xC2) := by omega
    have a3 : ¬ (0xF0 + r / 262144 < 0xE0) := by omega
    have a3' : ¬ (0xF0 + r / 262144 < 0xF0) := by omega
    have a3'' : 0xF0 + r / 262144 < 0xF5 := by omega
    have a4 : isCont (0x80 + r % 64) = true := by
      simp only [isCont, Bool.and_eq_true, decide_eq_true_eq]; omega
    have a4' : isCont (0x80 + r / 64 % 64) = true := by
      simp only [isCont, Bool.and_eq_true, decide_eq_true_eq]; omega
    have a5 : (if 0xF0 + r / 262144 = 0xF0 then 0x90 else 0x80) ≤ 0x80 + r / 4096 % 64 ∧
        0x80 + r / 4096 % 64 ≤ (if 0xF0 + r / 262144 = 0xF4 then 0x8F else 0xBF) := by
      constructor
      · split_ifs <;> omega
      · split_ifs <;> omega
    simp only [List.cons_append, List.nil_append, decodeRune, a1, a2, a3, a3', a3'', a4, a4', a5,
      if_true, if_false, List.length_cons, List.length_nil, and_self]
    congr 1
    omega

theorem encodeRune_ne_nil (r : Nat) : encodeRune r ≠ [] := by
  unfold encodeRune
  split_ifs <;> simp

theorem encodeRune_length_pos (r : Nat) : 1 ≤ (encodeRune r).length :=
  List.length_pos.2 (encodeRune_ne_nil r)

theorem encodeRune_high (r : Nat) (h : 0x7F < r) : ∀ x ∈ encodeRune r, 0x80 ≤ x := by
  unfold encodeRune
  intro x hx
  split_ifs at hx <;> simp at hx <;> omega

theorem ValidRune_RuneError : ValidRune RuneError := by decide

theorem decodeRune_valid (s : GoString) : ValidRune (decodeRune s).1 := by
  by_cases h : (decodeRune s).1 = RuneError
  · rw [h]; exact ValidRune_RuneError
  · have hs : s ≠ [] := by
      intro e; subst e; exact h rfl
    exact (decodeRune_sound s hs (fun hh => h hh.1)).2.2

/-! ### `strings.ReplaceAll` and the keyword -/

theorem flatMap_id_of_not_mem (a : Nat) (new s : GoString) (h : a ∉ s) :
    s.flatMap (fun x => if x = a then new else [x]) = s := by
  induction s with
  | nil => rfl
  | cons x t ih =>
    have hx : x ≠ a := fun e => h (by simp [e])
    have ht : a ∉ t := fun e => h (by simp [e])
    simp [List.flatMap_cons, hx, ih ht]

theorem not_mem_of_indexOf_none (a : Nat) (s : GoString) (h : indexOf [a] s = none) : a ∉ s := by
  intro hm
  rw [indexOf_eq_none] at h
  apply h
  obtain ⟨u, v, huv⟩ := List.append_of_mem hm
  exact ⟨u, v, by rw [huv]; simp⟩

theorem replaceLoop_single (a : Nat) (new : GoString) (k : Nat) (s : GoString)
    (h : s.length ≤ k) :
    replaceLoop [a] new k s = s.flatMap (fun x => if x = a then new else [x]) := by
  induction k generalizing s with
  | zero =>
    have : s = [] := List.length_eq_zero.1 (Nat.le_zero.1 h)
    subst this; rfl
  | succ k ih =>
    simp only [replaceLoop]
    cases hi : indexOf [a] s with
    | none =>
      simp only
      rw [flatMap_id_of_not_mem a new s (not_mem_of_indexOf_none a s hi)]
    | some j =>
      simp only [List.length_singleton]
      obtain ⟨e1, e2⟩ := indexOf_single a s j hi
      have hlen : (s.drop (j + 1)).length ≤ k := by
        have : s.length = (s.take j).length + 1 + (s.drop (j + 1)).length := by
          conv_lhs => rw [e1]
          simp only [List.length_append, List.length_cons]
          omega
        omega
      rw [ih _ hlen]
      conv_rhs => rw [e1]
      rw [List.flatMap_append, List.flatMap_cons, flatMap_id_of_not_mem a new _ e2]
      simp

theorem ReplaceAll_space_hyphen (s : GoString) :
    ReplaceAll s (lit " ") (lit "-") = s.map (fun b => if b = 0x20 then 0x2D else b) := by
  have e1 : lit " " = [0x20] := rfl
  have e2 : lit "-" = [0x2D] := rfl
  unfold ReplaceAll
  rw [e1, e2, if_neg (by decide), if_neg (by decide), replaceLoop_single _ _ _ _ (Nat.le_refl _)]
  induction s with
  | nil => rfl
  | cons x t ih =>
    rw [List.flatMap_cons, ih, List.map_cons]
    by_cases hx : x = 0x20 <;> simp [hx]

theorem ReplaceAll_colon (s : GoString) :
    ReplaceAll s (lit ":") (lit "") = s.filter (fun b => b != 0x3A) := by
  have e1 : lit ":" = [0x3A] := rfl
  have e2 : lit "" = [] := rfl
  unfold ReplaceAll
  rw [e1, e2, if_neg (by decide), if_neg (by decide), replaceLoop_single _ _ _ _ (Nat.le_refl _)]
  induction s with
  | nil => rfl
  | cons x t ih =>
    rw [List.flatMap_cons, ih]
    by_cases hx : x = 0x3A <;> simp [hx, List.filter_cons]

/-- The keyword that `newSnippet` computes, in the words of the specification. -/
theorem newSnippet_ok (tbl : Nat → Nat) (r : RandRead) (emoji name : GoString)
    (h1 : r.err = false) (h2 : r.n = 16) :
    newSnippet tbl r emoji name =
      .ok { Snippet := { Snippet := emoji, UID := uuidFormat (r.b), Name := name,
                         Keyword := deriveKeyword tbl name } } := by
  unfold newSnippet uuid
  rw [if_neg (by simp [h1, h2])]
  simp only [ReplaceAll_space_hyphen, ReplaceAll_colon, deriveKeyword]
  rfl

theorem newSnippet_fields (tbl : Nat → Nat) (r : RandRead) (emoji name : GoString) (s : snippet)
    (h : newSnippet tbl r emoji name = .ok s) :
    r.err = false ∧ r.n = 16 ∧ s.Snippet.Snippet = emoji ∧ s.Snippet.UID = uuidFormat r.b ∧
      s.Snippet.Name = name ∧ s.Snippet.Keyword = deriveKeyword tbl name := by
  by_cases hr : r.err = true ∨ r.n ≠ 16
  · unfold newSnippet uuid at h
    rw [if_pos hr] at h
    cases h
  · rw [not_or, Bool.not_eq_true, ne_eq, not_not] at hr
    rw [newSnippet_ok tbl r emoji name hr.1 hr.2] at h
    cases h
    exact ⟨hr.1, hr.2, rfl, rfl, rfl, rfl⟩

/-- Claim C4. Whenever `newSnippet` returns a snippet, its keyword is
`":" ++ t ++ ":"`, with `t` the name lowercased, then every space replaced
by a hyphen, then every colon removed: it depends on the name only.  And
`newSnippet` does return whenever the random read succeeds. -/
theorem newSnippet_keyword (tbl : Nat → Nat) (r : RandRead) (emoji name : GoString) :
    (∀ s, newSnippet tbl r emoji name = .ok s → s.Snippet.Keyword = deriveKeyword tbl name) ∧
    (r.err = false → r.n = 16 → ∃ s, newSnippet tbl r emoji name = .ok s) :=
  ⟨fun s h => (newSnippet_fields tbl r emoji name s h).2.2.2.2.2,
   fun h1 h2 => ⟨_, newSnippet_ok tbl r emoji name h1 h2⟩⟩

theorem deriveKeyword_example (tbl : Nat → Nat) :
    deriveKeyword tbl (lit "Grinning Face: Big") = lit ":grinning-face-big:" := rfl

theorem unicodeToLower_ascii (tbl : Nat → Nat) (r : Nat) (h : r ≤ 0x7F)
    (h' : ¬ (0x41 ≤ r ∧ r ≤ 0x5A)) : unicodeToLower tbl r = r := by
  unfold unicodeToLower
  rw [if_pos h, if_neg h']

theorem mapLoop_runes (f : Nat → Nat) (k : Nat) (s : GoString) :
    ∃ rs : List Nat, (∀ r ∈ rs, ValidRune r) ∧
      mapLoop f k s = rs.flatMap (fun r => encodeRune (f r)) := by
  induction k generalizing s with
  | zero => exact ⟨[], by simp, rfl⟩
  | succ k ih =>
    by_cases hs : s = []
    · exact ⟨[], by simp, by simp [mapLoop, hs]⟩
    · obtain ⟨rs, h1, h2⟩ := ih (s.drop (decodeRune s).2)
      refine ⟨(decodeRune s).1 :: rs, ?_, ?_⟩
      · intro r hr
        rcases List.mem_cons.1 hr with e | e
        · rw [e]; exact decodeRune_valid s
        · exact h1 r e
      · simp only [mapLoop, if_neg hs, h2, List.flatMap_cons]

theorem mapLoop_encoded (f : Nat → Nat) (rs : List Nat) (hrs : ∀ r ∈ rs, ValidRune r) (k : Nat)
    (hk : (rs.flatMap encodeRune).length ≤ k) :
    mapLoop f k (rs.flatMap encodeRune) = rs.flatMap (fun r => encodeRune (f r)) := by
  induction rs generalizing k with
  | nil => cases k <;> simp [mapLoop]
  | cons r rs ih =>
    have hr : ValidRune r := hrs r (by simp)
    have hrs' : ∀ x ∈ rs, ValidRune x := fun x hx => hrs x (by simp [hx])
    rw [List.flatMap_cons] at hk ⊢
    have hpos := encodeRune_length_pos r
    rw [List.length_append] at hk
    rcases k with _ | k
    · omega
    · have hne : encodeRune r ++ rs.flatMap encodeRune ≠ [] := by
        simp [encodeRune_ne_nil r]
      simp only [mapLoop, if_neg hne, decodeRune_encodeRune r hr, List.drop_left, List.flatMap_cons]
      rw [ih hrs' k (by omega)]

theorem map_hyphen_encodeRune (r : Nat) :
    (encodeRune r).map (fun b => if b = 0x20 then 0x2D else b)
      = encodeRune (if r = 0x20 then 0x2D else r) := by
  by_cases h : r ≤ 0x7F
  · rw [encodeRune_ascii r h]
    have : (if r = 0x20 then 0x2D else r) ≤ 0x7F := by split_ifs <;> omega
    rw [encodeRune_ascii _ this]
    rfl
  · have hne : r ≠ 0x20 := by omega
    rw [if_neg hne]
    have hb := encodeRune_high r (by omega)
    conv_rhs => rw [← List.map_id (encodeRune r)]
    apply List.map_congr_left
    intro x hx
    have := hb x hx
    have hx' : x ≠ 0x20 := by omega
    simp [hx']

theorem filter_colon_encodeRune (r : Nat) :
    (encodeRune r).filter (fun b => b != 0x3A) = if r = 0x3A then [] else encodeRune r := by
  by_cases h : r ≤ 0x7F
  · rw [encodeRune_ascii r h]
    by_cases hr : r = 0x3A <;> simp [hr, List.filter_cons]
  · have hne : r ≠ 0x3A := by omega
    rw [if_neg hne, List.filter_eq_self]
    intro x hx
    have := encodeRune_high r (by omega) x hx
    have hx' : x ≠ 0x3A := by omega
    simp [hx']

theorem map_hyphen_encoded (rs : List Nat) :
    (rs.flatMap encodeRune).map (fun b => if b = 0x20 then 0x2D else b)
      = (rs.map (fun r => if r = 0x20 then 0x2D else r)).flatMap encodeRune := by
  induction rs with
  | nil => rfl
  | cons r rs ih =>
    simp only [List.flatMap_cons, List.map_append, List.map_cons, ih, map_hyphen_encodeRune]

theorem filter_colon_encoded (rs : List Nat) :
    (rs.flatMap encodeRune).filter (fun b => b != 0x3A)
      = (rs.filter (fun r => r != 0x3A)).flatMap encodeRune := by
  induction rs with
  | nil => rfl
  | cons r rs ih =>
    simp only [List.flatMap_cons, List.filter_append, ih, filter_colon_encodeRune]
    by_cases hr : r = 0x3A <;> simp [hr, List.filter_cons]

/-- The body of a derived keyword is the encoding of runes that lowercasing,
hyphenation and colon removal leave alone. -/
theorem deriveKeyword_runes (tbl : Nat → Nat)
    (hvalid : ∀ r, ValidRune r → ValidRune (unicodeToLower tbl r))
    (hidem : ∀ r, ValidRune r →
      unicodeToLower tbl (unicodeToLower tbl r) = unicodeToLower tbl r)
    (name : GoString) :
    ∃ rs : List Nat, deriveKeyword tbl name = [0x3A] ++ rs.flatMap encodeRune ++ [0x3A] ∧
      (∀ r ∈ rs, ValidRune r ∧ unicodeToLower tbl r = r ∧ r ≠ 0x20 ∧ r ≠ 0x3A) := by
  obtain ⟨rs0, hv0, h0⟩ := mapLoop_runes (unicodeToLower tbl) name.length name
  refine ⟨((rs0.map (unicodeToLower tbl)).map (fun r => if r = 0x20 then 0x2D else r)).filter
    (fun r => r != 0x3A), ?_, ?_⟩
  · unfold deriveKeyword ToLower
    rw [h0, ← filter_colon_encoded, ← map_hyphen_encoded, List.flatMap_map]
  · intro r hr
    rw [List.mem_filter, List.mem_map] at hr
    obtain ⟨⟨x, hx, hxr⟩, hne⟩ := hr
    rw [List.mem_map] at hx
    obtain ⟨c, hc, hcx⟩ := hx
    have hcv := hv0 c hc
    have hne' : r ≠ 0x3A := by simpa using hne
    by_cases h20 : x = 0x20
    · rw [if_pos h20] at hxr
      subst hxr
      exact ⟨by decide, unicodeToLower_ascii tbl 0x2D (by decide) (by decide), by decide, by decide⟩
    · rw [if_neg h20] at hxr
      subst hxr
      subst hcx
      exact ⟨hvalid c hcv, hidem c hcv, h20, hne'⟩

theorem deriveKeyword_of_fixed (tbl : Nat → Nat) (rs : List Nat)
    (h : ∀ r ∈ rs, ValidRune r ∧ unicodeToLower tbl r = r ∧ r ≠ 0x20)
    : deriveKeyword tbl (rs.flatMap encodeRune)
      = [0x3A] ++ (rs.filter (fun r => r != 0x3A)).flatMap encodeRune ++ [0x3A] := by
  unfold deriveKeyword ToLower
  rw [mapLoop_encoded _ rs (fun r hr => (h r hr).1) _ (Nat.le_refl _)]
  have e1 : rs.flatMap (fun r => encodeRune (unicodeToLower tbl r)) = rs.flatMap encodeRune := by
    apply List.flatMap_congr
    intro r hr
    rw [(h r hr).2.1]
  have e2 : rs.map (fun r => if r = 0x20 then 0x2D else r) = rs := by
    conv_rhs => rw [← List.map_id rs]
    apply List.map_congr_left
    intro r hr
    simp [(h r hr).2.2]
  rw [e1, map_hyphen_encoded, e2, filter_colon_encoded]

theorem deriveKeyword_idempotent (tbl : Nat → Nat)
    (hvalid : ∀ r, ValidRune r → ValidRune (unicodeToLower tbl r))
    (hidem : ∀ r, ValidRune r →
      unicodeToLower tbl (unicodeToLower tbl r) = unicodeToLower tbl r)
    (name : GoString) :
    deriveKeyword tbl (((deriveKeyword tbl name).drop 1).dropLast) = deriveKeyword tbl name ∧
    deriveKeyword tbl (deriveKeyword tbl name) = deriveKeyword tbl name := by
  obtain ⟨rs, hk, hrs⟩ := deriveKeyword_runes tbl hvalid hidem name
  have hfilter : rs.filter (fun r => r != 0x3A) = rs := by
    rw [List.filter_eq_self]
    intro r hr
    simpa using (hrs r hr).2.2.2
  constructor
  · have hstrip : ((deriveKeyword tbl name).drop 1).dropLast = rs.flatMap encodeRune := by
      rw [hk]
      simp
    rw [hstrip, deriveKeyword_of_fixed tbl rs (fun r hr => ⟨(hrs r hr).1, (hrs r hr).2.1, (hrs r hr).2.2.1⟩),
      hfilter, hk]
  · have hcolon : encodeRune 0x3A = [0x3A] := rfl
    have hk' : deriveKeyword tbl name = (0x3A :: (rs ++ [0x3A])).flatMap encodeRune := by
      rw [hk]
      simp [List.flatMap_cons, List.flatMap_append, hcolon]
    have hfix : ∀ r ∈ 0x3A :: (rs ++ [0x3A]),
        ValidRune r ∧ unicodeToLower tbl r = r ∧ r ≠ 0x20 := by
      intro r hr
      simp only [List.mem_cons, List.mem_append, List.mem_singleton, List.not_mem_nil, or_false] at hr
      rcases hr with e | e | e
      · subst e; exact ⟨by decide, unicodeToLower_ascii tbl 0x3A (by decide) (by decide), by decide⟩
      · exact ⟨(hrs r e).1, (hrs r e).2.1, (hrs r e).2.2.1⟩
      · subst e; exact ⟨by decide, unicodeToLower_ascii tbl 0x3A (by decide) (by decide), by decide⟩
    conv_lhs => rw [hk']
    rw [deriveKeyword_of_fixed tbl _ hfix, hk]
    simp [List.filter_cons, List.filter_append, hfilter]

theorem unicodeToLower_id_valid (r : Nat) (h : ValidRune r) : ValidRune (unicodeToLower id r) := by
  unfold unicodeToLower ValidRune at *
  split_ifs <;> (try simp only [id_eq]) <;> omega

theorem unicodeToLower_id_idem (r : Nat) :
    unicodeToLower id (unicodeToLower id r) = unicodeToLower id r := by
  unfold unicodeToLower
  split_ifs <;> (try simp only [id_eq] at *) <;> omega

/-- Claim C9. Provided `unicode.ToLower` maps Unicode scalar values to Unicode
scalar values and is idempotent on them, the keyword derived from a keyword
without its two outer colons, and the keyword derived from the keyword itself,
are both that keyword. -/
theorem newSnippet_keyword_idempotent (tbl : Nat → Nat)
    (hvalid : ∀ r, ValidRune r → ValidRune (unicodeToLower tbl r))
    (hidem : ∀ r, ValidRune r →
      unicodeToLower tbl (unicodeToLower tbl r) = unicodeToLower tbl r)
    (r1 r2 r3 : RandRead) (h1 : r1.err = false ∧ r1.n = 16) (h2 : r2.err = false ∧ r2.n = 16)
    (h3 : r3.err = false ∧ r3.n = 16) (e1 e2 e3 name : GoString) :
    ∃ s1 s2 s3 : snippet,
      newSnippet tbl r1 e1 name = .ok s1 ∧
      newSnippet tbl r2 e2 ((s1.Snippet.Keyword.drop 1).dropLast) = .ok s2 ∧
      newSnippet tbl r3 e3 s1.Snippet.Keyword = .ok s3 ∧
      s2.Snippet.Keyword = s1.Snippet.Keyword ∧ s3.Snippet.Keyword = s1.Snippet.Keyword := by
  have hk := deriveKeyword_idempotent tbl hvalid hidem name
  exact ⟨_, _, _, newSnippet_ok tbl r1 e1 name h1.1 h1.2,
    newSnippet_ok tbl r2 e2 _ h2.1 h2.2, newSnippet_ok tbl r3 e3 _ h3.1 h3.2, hk.1, hk.2⟩

/-- Claim C9 for the name `Grinning Face: Big`, the case table being the identity. -/
theorem newSnippet_keyword_idempotent_witness :
    ∃ s1 s2 s3 : snippet,
      newSnippet id zeroRead (lit "😀") (lit "Grinning Face: Big") = .ok s1 ∧
      newSnippet id zeroRead (lit "😀") ((s1.Snippet.Keyword.drop 1).dropLast) = .ok s2 ∧
      newSnippet id zeroRead (lit "😀") s1.Snippet.Keyword = .ok s3 ∧
      s2.Snippet.Keyword = s1.Snippet.Keyword ∧ s3.Snippet.Keyword = s1.Snippet.Keyword :=
  newSnippet_keyword_idempotent id unicodeToLower_id_valid (fun r _ => unicodeToLower_id_idem r)
    zeroRead zeroRead zeroRead ⟨rfl, rfl⟩ ⟨rfl, rfl⟩ ⟨rfl, rfl⟩ (lit "😀") (lit "😀") (lit "😀")
    (lit "Grinning Face: Big")

theorem newSnippet_keyword_example (tbl : Nat → Nat) (emoji : GoString) :
    newSnippet tbl zeroRead emoji (lit "Grinning Face: Big") =
      .ok { Snippet := { Snippet := emoji, UID := lit "00000000-0000-0000-0000-000000000000",
                         Name := lit "Grinning Face: Big", Keyword := lit ":grinning-face-big:" } } :=
  rfl

/-! ### JSON strings -/

theorem hex_spec : ∀ d, d < 16 → hexValue (hex.getD d 0) = some d := by decide

theorem decode_step_quote (hi : Option Nat) (t : GoString) :
    decodeStringBody hi (0x22 :: t) = some (pending hi, t) := by
  rw [decodeStringBody.eq_def]
  simp only [if_true]

theorem decode_step_plain (hi : Option Nat) (b : Nat) (t : GoString)
    (h1 : b ≠ 0x22) (h2 : b ≠ 0x5C) (h3 : ¬ b < 0x20) :
    decodeStringBody hi (b :: t)
      = (decodeStringBody none t).map (fun p => (pending hi ++ b :: p.1, p.2)) := by
  rw [decodeStringBody.eq_def]
  simp only [if_neg h1, if_neg h2, if_neg h3]

theorem decode_step_escape (hi : Option Nat) (e c : Nat) (t : GoString)
    (h1 : e ≠ 0x75) (h2 : unescape e = some c) :
    decodeStringBody hi (0x5C :: e :: t)
      = (decodeStringBody none t).map (fun p => (pending hi ++ c :: p.1, p.2)) := by
  rw [decodeStringBody.eq_def]
  simp only [if_neg h1, h2, if_true]
  rfl

theorem decode_step_u (h1 h2 h3 h4 u : Nat) (t : GoString)
    (hu : hex4 h1 h2 h3 h4 = some u) (hs : ¬ (0xD800 ≤ u ∧ u < 0xDC00)) :
    decodeStringBody none (0x5C :: 0x75 :: h1 :: h2 :: h3 :: h4 :: t)
      = (decodeStringBody none t).map (fun p => (encodeRune u ++ p.1, p.2)) := by
  rw [decodeStringBody.eq_def]
  simp only [hu, if_neg hs, if_true]
  rfl

theorem decode_plain (bs X : GoString)
    (h : ∀ b ∈ bs, b ≠ 0x22 ∧ b ≠ 0x5C ∧ ¬ b < 0x20) :
    decodeStringBody none (bs ++ X) = (decodeStringBody none X).map (fun p => (bs ++ p.1, p.2)) := by
  induction bs with
  | nil => cases hX : decodeStringBody none X <;> simp [hX]
  | cons b t ih =>
    obtain ⟨h1, h2, h3⟩ := h b (by simp)
    have iht := ih (fun x hx => h x (by simp [hx]))
    rw [List.cons_append, decode_step_plain none b _ h1 h2 h3, iht]
    cases hX : decodeStringBody none X <;> simp [pending]

theorem decode_escapeByte (r : Nat) (h1 : r < 0x80) (h2 : htmlSafe r = false) (X : GoString) :
    decodeStringBody none (escapeByte r ++ X)
      = (decodeStringBody none X).map (fun p => (r :: p.1, p.2)) := by
  have hcases : r = 0x22 ∨ r = 0x5C ∨ r = 0x0A ∨ r = 0x0D ∨ r = 0x09 ∨
      (r ≠ 0x22 ∧ r ≠ 0x5C ∧ r ≠ 0x0A ∧ r ≠ 0x0D ∧ r ≠ 0x09 ∧
        (r < 0x20 ∨ r = 0x26 ∨ r = 0x3C ∨ r = 0x3E)) := by
    simp only [htmlSafe, Bool.and_eq_false_iff, decide_eq_false_iff_not, bne_eq_false_iff_eq,
      beq_iff_eq, Bool.not_eq_true', bne_iff_ne, ne_eq, Bool.and_eq_true, decide_eq_true_eq] at h2
    omega
  have hn : lit "\\n" = [0x5C, 0x6E] := rfl
  have hr : lit "\\r" = [0x5C, 0x72] := rfl
  have ht : lit "\\t" = [0x5C, 0x74] := rfl
  have hu : lit "\\u00" = [0x5C, 0x75, 0x30, 0x30] := rfl
  have hp : pending none = [] := rfl
  rcases hcases with e | e | e | e | e | ⟨n1, n2, n3, n4, n5, e⟩
  · subst e
    have : escapeByte 0x22 = [0x5C, 0x22] := rfl
    rw [this, List.cons_append, List.cons_append, List.nil_append,
      decode_step_escape none 0x22 0x22 X (by decide) rfl, hp]
    rfl
  · subst e
    have : escapeByte 0x5C = [0x5C, 0x5C] := rfl
    rw [this, List.cons_append, List.cons_append, List.nil_append,
      decode_step_escape none 0x5C 0x5C X (by decide) rfl, hp]
    rfl
  · subst e
    have : escapeByte 0x0A = [0x5C, 0x6E] := rfl
    rw [this, List.cons_append, List.cons_append, List.nil_append,
      decode_step_escape none 0x6E 0x0A X (by decide) rfl, hp]
    rfl
  · subst e
    have : escapeByte 0x0D = [0x5C, 0x72] := rfl
    rw [this, List.cons_append, List.cons_append, List.nil_append,
      decode_step_escape none 0x72 0x0D X (by decide) rfl, hp]
    rfl
  · subst e
    have : escapeByte 0x09 = [0x5C, 0x74] := rfl
    rw [this, List.cons_append, List.cons_append, List.nil_append,
      decode_step_escape none 0x74 0x09 X (by decide) rfl, hp]
    rfl
  · have e1 : escapeByte r = [0x5C, 0x75, 0x30, 0x30, hex.getD (r / 16) 0, hex.getD (r % 16) 0] := by
      unfold escapeByte
      rw [if_neg (by omega), if_neg n3, if_neg n4, if_neg n5, hu]
      rfl
    have a1 := hex_spec (r / 16) (by omega)
    have a2 := hex_spec (r % 16) (by omega)
    have a3 : hexValue 0x30 = some 0 := rfl
    have e2 : hex4 0x30 0x30 (hex.getD (r / 16) 0) (hex.getD (r % 16) 0) = some r := by
      simp only [hex4, a1, a2, a3]
      congr 1
      omega
    have e3 : ¬ (0xD800 ≤ r ∧ r < 0xDC00) := by omega
    rw [e1]
    simp only [List.cons_append, List.nil_append]
    rw [decode_step_u _ _ _ _ r X e2 e3, encodeRune_ascii r (by omega)]
    rfl

theorem validLoop_runes (k : Nat) (s : GoString) (h : validLoop k s = true) :
    ∃ rs : List Nat, (∀ r ∈ rs, ValidRune r) ∧ s = rs.flatMap encodeRune := by
  induction k generalizing s with
  | zero =>
    simp only [validLoop, List.isEmpty_iff] at h
    exact ⟨[], by simp, by simp [h]⟩
  | succ k ih =>
    by_cases hs : s = []
    · exact ⟨[], by simp, by simp [hs]⟩
    · simp only [validLoop, if_neg hs] at h
      by_cases he : (decodeRune s).1 = RuneError ∧ (decodeRune s).2 = 1
      · rw [if_pos he] at h; cases h
      · rw [if_neg he] at h
        obtain ⟨rs, h1, h2⟩ := ih _ h
        have hsnd := decodeRune_sound s hs he
        refine ⟨(decodeRune s).1 :: rs, ?_, ?_⟩
        · intro r hr
          rcases List.mem_cons.1 hr with e | e
          · rw [e]; exact hsnd.2.2
          · exact h1 r e
        · rw [List.flatMap_cons, ← h2]
          exact hsnd.1

theorem ValidString_runes (s : GoString) (h : ValidString s = true) :
    ∃ rs : List Nat, (∀ r ∈ rs, ValidRune r) ∧ s = rs.flatMap encodeRune :=
  validLoop_runes _ s h

theorem stringLoop_cons (k b : Nat) (t : GoString) :
    stringLoop (k + 1) (b :: t) =
      if b < 0x80 then
        if htmlSafe b then b :: stringLoop k t
        else escapeByte b ++ stringLoop k t
      else
        if (decodeRune (b :: t)).1 = RuneError ∧ (decodeRune (b :: t)).2 = 1 then
          lit "\\ufffd" ++ stringLoop k t
        else if (decodeRune (b :: t)).1 = 0x2028 ∨ (decodeRune (b :: t)).1 = 0x2029 then
          lit "\\u202" ++ [hex.getD ((decodeRune (b :: t)).1 % 16) 0] ++
            stringLoop k ((b :: t).drop (decodeRune (b :: t)).2)
        else (b :: t).take (decodeRune (b :: t)).2 ++
            stringLoop k ((b :: t).drop (decodeRune (b :: t)).2) := rfl

theorem encodeRune_length_high (r : Nat) (h : 0x7F < r) : 2 ≤ (encodeRune r).length := by
  unfold encodeRune
  split_ifs <;> simp; omega

/-- The string loop of the encoder followed by the closing quote decodes to the
string itself, for a string made of well-formed UTF-8 sequences. -/
theorem decode_stringLoop (rs : List Nat) (hrs : ∀ r ∈ rs, ValidRune r) (k : Nat)
    (hk : (rs.flatMap encodeRune).length ≤ k) (X : GoString) :
    decodeStringBody none (stringLoop k (rs.flatMap encodeRune) ++ 0x22 :: X)
      = some (rs.flatMap encodeRune, X) := by
  induction rs generalizing k with
  | nil =>
    have : stringLoop k [] = [] := by cases k <;> rfl
    simp only [List.flatMap_nil, this, List.nil_append]
    exact decode_step_quote none X
  | cons r rs ih =>
    have hr : ValidRune r := hrs r (by simp)
    have hrs' : ∀ x ∈ rs, ValidRune x := fun x hx => hrs x (by simp [hx])
    rw [List.flatMap_cons] at hk ⊢
    rw [List.length_append] at hk
    have hpos := encodeRune_length_pos r
    rcases k with _ | k
    · omega
    have ihk := ih hrs' k (by omega)
    by_cases h7 : r ≤ 0x7F
    · rw [encodeRune_ascii r h7, List.cons_append, List.nil_append, stringLoop_cons,
        if_pos (by omega)]
      by_cases hsafe : htmlSafe r = true
      · rw [if_pos hsafe, List.cons_append]
        have hh := hsafe
        simp only [htmlSafe, Bool.and_eq_true, decide_eq_true_eq, bne_iff_ne, ne_eq] at hh
        rw [decode_step_plain none r _ (by omega) (by omega) (by omega), ihk]
        rfl
      · rw [if_neg hsafe, List.append_assoc,
          decode_escapeByte r (by omega) (by simpa using hsafe), ihk]
        rfl
    · obtain ⟨b, t, hbt⟩ := List.exists_cons_of_ne_nil (encodeRune_ne_nil r)
      have hb : 0x80 ≤ b := encodeRune_high r (by omega) b (by rw [hbt]; simp)
      have hdec := decodeRune_encodeRune r hr (rs.flatMap encodeRune)
      have hlen2 := encodeRune_length_high r (by omega)
      rw [hbt, List.cons_append] at hdec ⊢
      rw [stringLoop_cons, if_neg (by omega), hdec]
      simp only
      rw [if_neg (by rintro ⟨-, h⟩; rw [hbt] at hlen2; omega)]
      have hdrop : List.drop (b :: t).length (b :: (t ++ rs.flatMap encodeRune))
          = rs.flatMap encodeRune := by
        rw [← List.cons_append, List.drop_left]
      have htake : List.take (b :: t).length (b :: (t ++ rs.flatMap encodeRune)) = b :: t := by
        rw [← List.cons_append, List.take_left]
      by_cases hls : r = 0x2028 ∨ r = 0x2029
      · rw [if_pos hls, hdrop]
        have hu : lit "\\u202" = [0x5C, 0x75, 0x32, 0x30, 0x32] := rfl
        rw [hu]
        simp only [List.cons_append, List.nil_append]
        have e2 : hex4 0x32 0x30 0x32 (hex.getD (r % 16) 0) = some r := by
          rcases hls with e | e <;> subst e <;> rfl
        rw [decode_step_u _ _ _ _ r _ e2 (by omega), ihk, hbt]
        rfl
      · rw [if_neg hls, hdrop, htake, List.append_assoc]
        rw [decode_plain (b :: t) _ (fun x hx => by
          have := encodeRune_high r (by omega) x (by rw [hbt]; exact hx)
          omega), ihk]
        rfl

theorem encodeString_head (s : GoString) : encodeString s = 0x22 :: (encodeString s).drop 1 := rfl

theorem skipWS_cons (b : Nat) (t : GoString) (h : ¬ (b = 0x20 ∨ b = 0x09 ∨ b = 0x0A ∨ b = 0x0D)) :
    skipWS (b :: t) = b :: t := by
  rw [skipWS.eq_def]
  simp only [if_neg h]

theorem decodeValue_string (f : Nat) (t : GoString) :
    decodeValue (f + 1) (0x22 :: t) = (decodeStringBody none t).map (fun p => (JSON.str p.1, p.2)) := by
  rw [decodeValue.eq_def]
  simp only [skipWS_cons 0x22 t (by decide)]

theorem decodeValue_object (f : Nat) (t : GoString) :
    decodeValue (f + 1) (0x7B :: 0x22 :: t)
      = (decodeMembers f (0x22 :: t)).map (fun p => (JSON.obj p.1, p.2)) := by
  rw [decodeValue.eq_def]
  simp only [skipWS_cons 0x7B _ (by decide), skipWS_cons 0x22 _ (by decide)]

theorem decodeMembers_last (f : Nat) (t key r1 r3 : GoString) (v : JSON)
    (hk : decodeStringBody none t = some (key, 0x3A :: r1))
    (hv : decodeValue f r1 = some (v, 0x7D :: r3)) :
    decodeMembers (f + 1) (0x22 :: t) = some ([(key, v)], r3) := by
  rw [decodeMembers.eq_def]
  simp only [skipWS_cons 0x22 _ (by decide), hk, skipWS_cons 0x3A _ (by decide), hv,
    skipWS_cons 0x7D _ (by decide)]

theorem decodeMembers_more (f : Nat) (t key r1 r3 : GoString) (v : JSON)
    (hk : decodeStringBody none t = some (key, 0x3A :: r1))
    (hv : decodeValue f r1 = some (v, 0x2C :: r3)) :
    decodeMembers (f + 1) (0x22 :: t)
      = (decodeMembers f r3).map (fun p => ((key, v) :: p.1, p.2)) := by
  rw [decodeMembers.eq_def]
  simp only [skipWS_cons 0x22 _ (by decide), hk, skipWS_cons 0x3A _ (by decide), hv,
    skipWS_cons 0x2C _ (by decide)]

theorem decode_encodeString_of_encoded (s : GoString) (h : Encoded s) (X : GoString) :
    decodeStringBody none ((encodeString s).drop 1 ++ X) = some (s, X) := by
  obtain ⟨rs, h1, h2⟩ := h
  have hq : lit "\"" = [0x22] := rfl
  unfold encodeString
  rw [hq]
  simp only [List.cons_append, List.nil_append, List.drop_succ_cons, List.drop_zero,
    List.append_assoc]
  subst h2
  exact decode_stringLoop rs h1 _ (Nat.le_refl _) X

theorem Encoded_of_ascii (s : GoString) (h : ∀ b ∈ s, b ≤ 0x7F) : Encoded s := by
  refine ⟨s, ?_, ?_⟩
  · intro r hr
    have := h r hr
    unfold ValidRune; omega
  · induction s with
    | nil => rfl
    | cons b t ih =>
      rw [List.flatMap_cons, encodeRune_ascii b (h b (by simp)),
        ← ih (fun x hx => h x (by simp [hx]))]
      rfl

theorem encodeRune_norm (r : Nat) : ∃ r', ValidRune r' ∧ encodeRune r = encodeRune r' := by
  by_cases h : ValidRune r
  · exact ⟨r, h, rfl⟩
  · refine ⟨RuneError, ValidRune_RuneError, ?_⟩
    unfold ValidRune at h
    unfold encodeRune
    rw [if_neg (by omega), if_neg (by omega), if_pos (by omega)]
    rfl

theorem Encoded_flatMap (f : Nat → Nat) (rs : List Nat) :
    Encoded (rs.flatMap (fun r => encodeRune (f r))) := by
  induction rs with
  | nil => exact ⟨[], by simp, rfl⟩
  | cons r rs ih =>
    obtain ⟨rs', h1, h2⟩ := ih
    obtain ⟨r', hr1, hr2⟩ := encodeRune_norm (f r)
    refine ⟨r' :: rs', ?_, ?_⟩
    · intro x hx
      rcases List.mem_cons.1 hx with e | e
      · rw [e]; exact hr1
      · exact h1 x e
    · rw [List.flatMap_cons, List.flatMap_cons, h2, hr2]

theorem Encoded_deriveKeyword (tbl : Nat → Nat) (name : GoString) :
    Encoded (deriveKeyword tbl name) := by
  obtain ⟨rs0, -, h0⟩ := mapLoop_runes (unicodeToLower tbl) name.length name
  obtain ⟨rs1, hv1, h1⟩ := Encoded_flatMap (unicodeToLower tbl) rs0
  refine ⟨0x3A :: (((rs1.map (fun r => if r = 0x20 then 0x2D else r)).filter
    (fun r => r != 0x3A)) ++ [0x3A]), ?_, ?_⟩
  · intro r hr
    simp only [List.mem_cons, List.mem_append, List.mem_filter, List.mem_map, List.mem_singleton,
      List.not_mem_nil, or_false] at hr
    rcases hr with e | ⟨⟨x, hx, hxr⟩, -⟩ | e
    · subst e; decide
    · by_cases h20 : x = 0x20
      · rw [if_pos h20] at hxr; subst hxr; decide
      · rw [if_neg h20] at hxr; subst hxr; exact hv1 x hx
    · subst e; decide
  · unfold deriveKeyword ToLower
    rw [h0, h1, map_hyphen_encoded, filter_colon_encoded]
    have hcolon : encodeRune 0x3A = [0x3A] := rfl
    simp [List.flatMap_cons, List.flatMap_append, hcolon]

theorem udigits_ascii (d : Nat) : udigits.getD d 0 ≤ 0x7F := by
  by_cases h : d < 17
  · revert d
    decide
  · rw [List.getD_eq_default _ _ (by
      have : udigits.length = 17 := rfl
      omega)]
    omega

theorem fmtX_ascii (b : List Nat) : ∀ c ∈ fmtX b, c ≤ 0x7F := by
  intro c hc
  unfold fmtX at hc
  rw [List.mem_flatMap] at hc
  obtain ⟨x, -, hx⟩ := hc
  simp only [List.mem_cons, List.mem_singleton, List.not_mem_nil, or_false] at hx
  rcases hx with e | e <;> rw [e] <;> exact udigits_ascii _

theorem Encoded_uuidFormat (b : List Nat) : Encoded (uuidFormat b) := by
  apply Encoded_of_ascii
  intro c hc
  have hdash : lit "-" = [0x2D] := rfl
  unfold uuidFormat at hc
  simp only [hdash, List.mem_append, List.mem_singleton] at hc
  rcases hc with ((((((((h | h) | h) | h) | h) | h) | h) | h) | h)
  all_goals first | exact fmtX_ascii _ c h | omega

theorem decode_key (k Y : GoString) (h : ∀ b ∈ k, b ≠ 0x22 ∧ b ≠ 0x5C ∧ ¬ b < 0x20) :
    decodeStringBody none (k ++ 0x22 :: Y) = some (k, Y) := by
  rw [decode_plain k _ h, decode_step_quote]
  simp [pending]

theorem member_string_last (f : Nat) (k X EX Y : GoString)
    (hk : ∀ b ∈ k, b ≠ 0x22 ∧ b ≠ 0x5C ∧ ¬ b < 0x20)
    (hX : ∀ Z, decodeStringBody none (EX ++ Z) = some (X, Z)) :
    decodeMembers (f + 2) (0x22 :: (k ++ 0x22 :: 0x3A :: 0x22 :: (EX ++ 0x7D :: Y)))
      = some ([(k, JSON.str X)], Y) := by
  apply decodeMembers_last (f + 1) _ k (0x22 :: (EX ++ 0x7D :: Y)) Y (JSON.str X)
  · exact decode_key k _ hk
  · rw [decodeValue_string, hX]
    rfl

theorem member_string_more (f : Nat) (k X EX Y : GoString)
    (hk : ∀ b ∈ k, b ≠ 0x22 ∧ b ≠ 0x5C ∧ ¬ b < 0x20)
    (hX : ∀ Z, decodeStringBody none (EX ++ Z) = some (X, Z)) :
    decodeMembers (f + 2) (0x22 :: (k ++ 0x22 :: 0x3A :: 0x22 :: (EX ++ 0x2C :: Y)))
      = (decodeMembers (f + 1) Y).map (fun p => ((k, JSON.str X) :: p.1, p.2)) := by
  apply decodeMembers_more (f + 1) _ k (0x22 :: (EX ++ 0x2C :: Y)) Y (JSON.str X)
  · exact decode_key k _ hk
  · rw [decodeValue_string, hX]
    rfl

theorem encodeSnippet_shape (A B C D : GoString) :
    encodeSnippet { Snippet := { Snippet := A, UID := B, Name := C, Keyword := D } } =
      0x7B :: 0x22 :: (lit "alfredsnippet" ++ 0x22 :: 0x3A :: 0x7B ::
        0x22 :: (lit "snippet" ++ 0x22 :: 0x3A :: 0x22 :: ((encodeString A).drop 1 ++ 0x2C ::
        0x22 :: (lit "uid" ++ 0x22 :: 0x3A :: 0x22 :: ((encodeString B).drop 1 ++ 0x2C ::
        0x22 :: (lit "name" ++ 0x22 :: 0x3A :: 0x22 :: ((encodeString C).drop 1 ++ 0x2C ::
        0x22 :: (lit "keyword" ++ 0x22 :: 0x3A :: 0x22 :: ((encodeString D).drop 1 ++ 0x7D ::
        0x7D :: [0x0A]))))))))) := by
  have h1 : lit "\x7b\"alfredsnippet\":\x7b\"snippet\":" =
      0x7B :: 0x22 :: (lit "alfredsnippet" ++ 0x22 :: 0x3A :: 0x7B :: 0x22 ::
        (lit "snippet" ++ [0x22, 0x3A])) := by decide
  have h2 : lit ",\"uid\":" = 0x2C :: 0x22 :: (lit "uid" ++ [0x22, 0x3A]) := by decide
  have h3 : lit ",\"name\":" = 0x2C :: 0x22 :: (lit "name" ++ [0x22, 0x3A]) := by decide
  have h4 : lit ",\"keyword\":" = 0x2C :: 0x22 :: (lit "keyword" ++ [0x22, 0x3A]) := by decide
  have h5 : lit "\x7d\x7d\n" = [0x7D, 0x7D, 0x0A] := by decide
  unfold encodeSnippet
  simp only [h1, h2, h3, h4, h5]
  rw [encodeString_head A, encodeString_head B, encodeString_head C, encodeString_head D]
  simp only [List.append_assoc, List.cons_append, List.nil_append, List.drop_succ_cons,
    List.drop_zero]

theorem decodeJSON_snippet (A B C D : GoString) (hA : Encoded A) (hB : Encoded B)
    (hC : Encoded C) (hD : Encoded D) :
    decodeJSON (encodeSnippet { Snippet := { Snippet := A, UID := B, Name := C, Keyword := D } })
      = some (JSON.obj [(lit "alfredsnippet", JSON.obj [(lit "snippet", JSON.str A),
          (lit "uid", JSON.str B), (lit "name", JSON.str C), (lit "keyword", JSON.str D)])]) := by
  have eA := decode_encodeString_of_encoded A hA
  have eB := decode_encodeString_of_encoded B hB
  have eC := decode_encodeString_of_encoded C hC
  have eD := decode_encodeString_of_encoded D hD
  rw [encodeSnippet_shape]
  generalize (encodeString A).drop 1 = EA at eA ⊢
  generalize (encodeString B).drop 1 = EB at eB ⊢
  generalize (encodeString C).drop 1 = EC at eC ⊢
  generalize (encodeString D).drop 1 = ED at eD ⊢
  have k0 : ∀ b ∈ lit "alfredsnippet", b ≠ 0x22 ∧ b ≠ 0x5C ∧ ¬ b < 0x20 := by decide
  have k1 : ∀ b ∈ lit "snippet", b ≠ 0x22 ∧ b ≠ 0x5C ∧ ¬ b < 0x20 := by decide
  have k2 : ∀ b ∈ lit "uid", b ≠ 0x22 ∧ b ≠ 0x5C ∧ ¬ b < 0x20 := by decide
  have k3 : ∀ b ∈ lit "name", b ≠ 0x22 ∧ b ≠ 0x5C ∧ ¬ b < 0x20 := by decide
  have k4 : ∀ b ∈ lit "keyword", b ≠ 0x22 ∧ b ≠ 0x5C ∧ ¬ b < 0x20 := by decide
  unfold decodeJSON
  generalize hdoc : (0x7B :: 0x22 :: (lit "alfredsnippet" ++ 0x22 :: 0x3A :: 0x7B ::
        0x22 :: (lit "snippet" ++ 0x22 :: 0x3A :: 0x22 :: (EA ++ 0x2C ::
        0x22 :: (lit "uid" ++ 0x22 :: 0x3A :: 0x22 :: (EB ++ 0x2C ::
        0x22 :: (lit "name" ++ 0x22 :: 0x3A :: 0x22 :: (EC ++ 0x2C ::
        0x22 :: (lit "keyword" ++ 0x22 :: 0x3A :: 0x22 :: (ED ++ 0x7D ::
        0x7D :: [0x0A]))))))))) : GoString) = doc
  have hlen : 8 ≤ doc.length := by
    rw [← hdoc]
    simp only [List.length_cons, List.length_append]
    omega
  obtain ⟨f, hf⟩ := Nat.exists_eq_add_of_le hlen
  rw [hf, Nat.add_comm 8 f, ← hdoc]
  have m4 := member_string_last f (lit "keyword") D ED (0x7D :: [0x0A]) k4 eD
  have m3 := member_string_more (f + 1) (lit "name") C EC
    (0x22 :: (lit "keyword" ++ 0x22 :: 0x3A :: 0x22 :: (ED ++ 0x7D :: 0x7D :: [0x0A]))) k3 eC
  rw [m4] at m3
  have m2 := member_string_more (f + 2) (lit "uid") B EB
    (0x22 :: (lit "name" ++ 0x22 :: 0x3A :: 0x22 :: (EC ++ 0x2C ::
      0x22 :: (lit "keyword" ++ 0x22 :: 0x3A :: 0x22 :: (ED ++ 0x7D :: 0x7D :: [0x0A]))))) k2 eB
  rw [m3] at m2
  have m1 := member_string_more (f + 3) (lit "snippet") A EA
    (0x22 :: (lit "uid" ++ 0x22 :: 0x3A :: 0x22 :: (EB ++ 0x2C ::
      0x22 :: (lit "name" ++ 0x22 :: 0x3A :: 0x22 :: (EC ++ 0x2C ::
      0x22 :: (lit "keyword" ++ 0x22 :: 0x3A :: 0x22 :: (ED ++ 0x7D :: 0x7D :: [0x0A]))))))) k1 eA
  rw [m2] at m1
  have v1 := decodeValue_object (f + 5) (lit "snippet" ++ 0x22 :: 0x3A :: 0x22 :: (EA ++ 0x2C ::
        0x22 :: (lit "uid" ++ 0x22 :: 0x3A :: 0x22 :: (EB ++ 0x2C ::
        0x22 :: (lit "name" ++ 0x22 :: 0x3A :: 0x22 :: (EC ++ 0x2C ::
        0x22 :: (lit "keyword" ++ 0x22 :: 0x3A :: 0x22 :: (ED ++ 0x7D ::
        0x7D :: [0x0A]))))))))
  rw [m1] at v1
  have m0 := decodeMembers_last (f + 6) _ (lit "alfredsnippet") _ [0x0A] _
    (decode_key (lit "alfredsnippet") _ k0) v1
  have v0 := decodeValue_object (f + 7) (lit "alfredsnippet" ++ 0x22 :: 0x3A :: 0x7B ::
        0x22 :: (lit "snippet" ++ 0x22 :: 0x3A :: 0x22 :: (EA ++ 0x2C ::
        0x22 :: (lit "uid" ++ 0x22 :: 0x3A :: 0x22 :: (EB ++ 0x2C ::
        0x22 :: (lit "name" ++ 0x22 :: 0x3A :: 0x22 :: (EC ++ 0x2C ::
        0x22 :: (lit "keyword" ++ 0x22 :: 0x3A :: 0x22 :: (ED ++ 0x7D ::
        0x7D :: [0x0A])))))))))
  rw [m0, show f + 7 + 1 = f + 8 from rfl] at v0
  rw [v0]
  rfl

/-- Claim C7, amended. For an emoji and a name that are valid UTF-8, the document
that `store` writes for the snippet of `newSnippet` decodes to an object whose
single key `alfredsnippet` holds an object with `snippet` equal to the emoji,
`name` equal to the name and `keyword` equal to the keyword derived from the
name. -/
theorem store_roundtrip (tbl : Nat → Nat) (r : RandRead) (emoji name : GoString) (s : snippet)
    (h : newSnippet tbl r emoji name = .ok s)
    (he : ValidString emoji = true) (hn : ValidString name = true) (zip : List ZipEntry) :
    ∃ entry : ZipEntry, s.store StoreFault.none zip = (zip ++ [entry], none) ∧
      decodeJSON entry.data = some (JSON.obj [(lit "alfredsnippet",
        JSON.obj [(lit "snippet", JSON.str emoji), (lit "uid", JSON.str s.Snippet.UID),
          (lit "name", JSON.str name), (lit "keyword", JSON.str (deriveKeyword tbl name))])]) := by
  obtain ⟨h1, h2, -⟩ := newSnippet_fields tbl r emoji name s h
  rw [newSnippet_ok tbl r emoji name h1 h2] at h
  cases h
  refine ⟨_, rfl, ?_⟩
  exact decodeJSON_snippet emoji (uuidFormat r.b) name (deriveKeyword tbl name)
    (ValidString_runes emoji he) (Encoded_uuidFormat r.b) (ValidString_runes name hn)
    (Encoded_deriveKeyword tbl name)

/-- Claim C7, amended, for the emoji U+1F600 and the name `Grinning Face: Big`. -/
theorem store_roundtrip_witness :
    ∃ entry : ZipEntry,
      snippet.store
          { Snippet := { Snippet := lit "😀", UID := lit "00000000-0000-0000-0000-000000000000",
                         Name := lit "Grinning Face: Big", Keyword := lit ":grinning-face-big:" } }
          StoreFault.none [] = ([] ++ [entry], none) ∧
      decodeJSON entry.data = some (JSON.obj [(lit "alfredsnippet",
        JSON.obj [(lit "snippet", JSON.str (lit "😀")),
          (lit "uid", JSON.str (lit "00000000-0000-0000-0000-000000000000")),
          (lit "name", JSON.str (lit "Grinning Face: Big")),
          (lit "keyword", JSON.str (deriveKeyword id (lit "Grinning Face: Big")))])]) :=
  store_roundtrip id zeroRead (lit "😀") (lit "Grinning Face: Big") _
    (newSnippet_keyword_example id (lit "😀")) (by decide) (by decide) []

set_option maxRecDepth 100000 in
/-- Claim C7 as stated fails: the line `é; fully-qualified` is valid UTF-8, its
display form is the second byte of `é` and a semicolon, and the document
written for it decodes to U+FFFD and a semicolon, not to the display form. -/
theorem store_roundtrip_invalid_utf8 :
    parseLine (lit "é; fully-qualified") = ([], Except.ok (some ([0xA9, 0x3B], lit "fully-qualified"))) ∧
    ¬ ∀ (tbl : Nat → Nat) (r : RandRead) (emoji name : GoString) (s : snippet),
        newSnippet tbl r emoji name = .ok s →
        decodeJSON (encodeSnippet s) = some (JSON.obj [(lit "alfredsnippet",
          JSON.obj [(lit "snippet", JSON.str emoji), (lit "uid", JSON.str s.Snippet.UID),
            (lit "name", JSON.str name), (lit "keyword", JSON.str (deriveKeyword tbl name))])]) := by
  refine ⟨rfl, ?_⟩
  intro h
  have h1 := h id zeroRead [0xA9, 0x3B] (lit "fully-qualified") _
    (newSnippet_ok id zeroRead [0xA9, 0x3B] (lit "fully-qualified") rfl rfl)
  have h2 : decodeJSON (encodeSnippet
        { Snippet := { Snippet := [0xA9, 0x3B], UID := uuidFormat zeroRead.b,
                       Name := lit "fully-qualified",
                       Keyword := deriveKeyword id (lit "fully-qualified") } }) =
      some (JSON.obj [(lit "alfredsnippet",
          JSON.obj [(lit "snippet", JSON.str [0xEF, 0xBF, 0xBD, 0x3B]),
            (lit "uid", JSON.str (uuidFormat zeroRead.b)),
            (lit "name", JSON.str (lit "fully-qualified")),
            (lit "keyword", JSON.str (deriveKeyword id (lit "fully-qualified")))])]) := by
    rfl
  rw [h2] at h1
  simp at h1

/-! ### The scanner loop -/

theorem parseLine_ok_log (raw : GoString) (rec : Option (GoString × GoString))
    (h : (parseLine raw).2 = .ok rec) : parseLine raw = ([], .ok rec) := by
  by_cases hrej : HasPrefix (TrimSpace raw) (lit "#") = true ∨ TrimSpace raw = [] ∨
      Contains (TrimSpace raw) (lit "; fully-qualified") = false
  · rw [parseLine_reject raw hrej] at h ⊢
    simp only [Except.ok.injEq] at h
    rw [h]
  · rw [not_or, not_or] at hrej
    obtain ⟨r1, r2, r3⟩ := hrej
    rw [Bool.not_eq_true] at r1
    rw [Bool.not_eq_false] at r3
    rw [parseLine_pass raw r1 r2 r3] at h ⊢
    cases hs : sliceFrom (TrimSpace raw) (Index (TrimSpace raw) (lit "# ") + 2) with
    | error p => rw [hs] at h; cases h
    | ok payload =>
      rw [hs] at h
      simp only [SplitN_two] at h ⊢
      cases hi : indexOf [0x20] payload with
      | none => rw [hi] at h; simp at h
      | some m =>
        rw [hi] at h
        simp at h ⊢
        exact h

theorem processLine_skip (tbl : Nat → Nat) (w : World) (st : State) (raw : GoString)
    (h : parseLine raw = ([], .ok none)) : processLine tbl w st raw = (st, none) := by
  unfold processLine
  rw [h]
  simp

theorem processLine_record (tbl : Nat → Nat) (w : World) (st : State) (raw emoji name : GoString)
    (h : parseLine raw = ([], .ok (some (emoji, name))))
    (hr : (w.rand st.reads).err = false ∧ (w.rand st.reads).n = 16)
    (hf : w.fault st.stores = StoreFault.none) :
    processLine tbl w st raw =
      ({ log := st.log,
         zip := st.zip ++ [entryOf { Snippet := { Snippet := emoji,
                                                   UID := uuidFormat (w.rand st.reads).b,
                                                   Name := name,
                                                   Keyword := deriveKeyword tbl name } }],
         reads := st.reads + 1, stores := st.stores + 1 }, none) := by
  unfold processLine
  rw [h]
  simp only [newSnippet_ok tbl _ emoji name hr.1 hr.2, hf, snippet.store, entryOf,
    List.append_nil]

theorem mainLoop_entries_aux (tbl : Nat → Nat) (w : World)
    (hstore : ∀ i, w.fault i = StoreFault.none)
    (hrand : ∀ i, (w.rand i).err = false ∧ (w.rand i).n = 16)
    (lines : List GoString) (hlines : ∀ raw ∈ lines, ∃ rec, (parseLine raw).2 = .ok rec)
    (st0 : State) :
    mainLoop tbl w st0 lines =
      ({ log := st0.log, zip := st0.zip ++ entriesFrom tbl w st0.reads (records lines),
         reads := st0.reads + (records lines).length,
         stores := st0.stores + (records lines).length }, none) := by
  induction lines generalizing st0 with
  | nil => simp [mainLoop, records, entriesFrom]
  | cons raw rest ih =>
    obtain ⟨rec, hrec⟩ := hlines raw (by simp)
    have hp := parseLine_ok_log raw rec hrec
    have ih' := ih (fun x hx => hlines x (by simp [hx]))
    rcases rec with _ | ⟨emoji, name⟩
    · have hrecs : records (raw :: rest) = records rest := by
        simp [records, hp]
      rw [hrecs]
      simp only [mainLoop, processLine_skip tbl w st0 raw hp]
      exact ih' st0
    · have hrecs : records (raw :: rest) = (emoji, name) :: records rest := by
        simp [records, hp]
      rw [hrecs]
      simp only [mainLoop, processLine_record tbl w st0 raw emoji name hp (hrand _) (hstore _)]
      rw [ih']
      simp only [entriesFrom, List.append_assoc, List.singleton_append, List.length_cons]
      congr 2
      · omega
      · omega

theorem entriesFrom_length (tbl : Nat → Nat) (w : World) (c : Nat)
    (rs : List (GoString × GoString)) : (entriesFrom tbl w c rs).length = rs.length := by
  induction rs generalizing c with
  | nil => rfl
  | cons p rs ih =>
    obtain ⟨e, n⟩ := p
    simp [entriesFrom, ih]

theorem entriesFrom_get (tbl : Nat → Nat) (w : World) (c : Nat)
    (rs : List (GoString × GoString)) (i : Nat) (emoji name : GoString)
    (h : rs[i]? = some (emoji, name)) :
    (entriesFrom tbl w c rs)[i]? =
      some (entryOf { Snippet := { Snippet := emoji, UID := uuidFormat (w.rand (c + i)).b,
                                   Name := name, Keyword := deriveKeyword tbl name } }) := by
  induction rs generalizing c i with
  | nil => simp at h
  | cons p rs ih =>
    obtain ⟨e, n⟩ := p
    rcases i with _ | i
    · simp at h
      obtain ⟨h1, h2⟩ := h
      subst h1 h2
      simp [entriesFrom]
    · simp at h
      have := ih (c + 1) i h
      have e : c + 1 + i = c + (i + 1) := by omega
      rw [e] at this
      simp only [entriesFrom, List.getElem?_cons_succ, this]

/-- Claim C6, amended. When no line makes the parsing step panic, every store
succeeds and every random read succeeds, the loop ends without panic, the
archive holds exactly one entry per record, and entry `i` is the entry of the
snippet that `newSnippet` builds from record `i`, whose snippet text and name
are the display form and the name of that record. -/
theorem mainLoop_entries (tbl : Nat → Nat) (w : World) (lines : List GoString)
    (hlines : ∀ raw ∈ lines, ∃ rec, (parseLine raw).2 = .ok rec)
    (hstore : ∀ i, w.fault i = StoreFault.none)
    (hrand : ∀ i, (w.rand i).err = false ∧ (w.rand i).n = 16) :
    ∃ st : State, mainLoop tbl w State.init lines = (st, none) ∧
      st.zip.length = (records lines).length ∧
      ∀ (i : Nat) (emoji name : GoString), (records lines)[i]? = some (emoji, name) →
        ∃ s : snippet, newSnippet tbl (w.rand i) emoji name = .ok s ∧
          st.zip[i]? = some (entryOf s) ∧ s.Snippet.Snippet = emoji ∧ s.Snippet.Name = name := by
  refine ⟨_, mainLoop_entries_aux tbl w hstore hrand lines hlines State.init, ?_, ?_⟩
  · simp [State.init, entriesFrom_length]
  · intro i emoji name hi
    refine ⟨_, newSnippet_ok tbl (w.rand i) emoji name (hrand i).1 (hrand i).2, ?_, rfl, rfl⟩
    have := entriesFrom_get tbl w 0 (records lines) i emoji name hi
    simpa [State.init] using this

/-- Claim C6 as stated fails: when the random source fails, a line that splits
into two parts leaves no entry although every store would succeed. -/
theorem mainLoop_entropy_failure :
    ¬ ∀ (tbl : Nat → Nat) (w : World) (lines : List GoString),
        (∀ raw ∈ lines, ∃ rec, (parseLine raw).2 = .ok rec) →
        (∀ i, w.fault i = StoreFault.none) →
        (mainLoop tbl w State.init lines).1.zip.length = (records lines).length := by
  intro h
  have h1 := h id entropyFailure entropyFailure.lines
    (by
      intro raw hraw
      have : raw = lit "1F600; fully-qualified  # 😀 grinning face" := by
        simpa [entropyFailure] using hraw
      subst this
      exact ⟨some (lit "😀", lit "grinning face"), rfl⟩)
    (fun _ => rfl)
  have h2 : (mainLoop id entropyFailure State.init entropyFailure.lines).1.zip.length = 0 := rfl
  have h3 : (records entropyFailure.lines).length = 1 := rfl
  rw [h2, h3] at h1
  exact absurd h1 (by decide)

/-- Claim C4 for the name `Grinning Face: Big`. -/
theorem newSnippet_keyword_witness :
    ∃ s : snippet, newSnippet id zeroRead (lit "😀") (lit "Grinning Face: Big") = .ok s ∧
      s.Snippet.Keyword = lit ":grinning-face-big:" := by
  obtain ⟨h1, h2⟩ := newSnippet_keyword id zeroRead (lit "😀") (lit "Grinning Face: Big")
  obtain ⟨s, hs⟩ := h2 rfl rfl
  exact ⟨s, hs, (h1 s hs).trans (deriveKeyword_example id)⟩

/-- Claim C6, amended, on the run `smallRun`. -/
theorem mainLoop_entries_witness :
    ∃ st : State, mainLoop id smallRun State.init smallRun.lines = (st, none) ∧
      st.zip.length = 2 ∧
      st.zip.map (fun e => e.name) =
        [lit "grinning face [00000000-0000-0000-0000-000000000000].json",
         lit "beaming face [01010101-0101-0101-0101-010101010101].json"] := by
  obtain ⟨st, h1, h2, -⟩ := mainLoop_entries id smallRun smallRun.lines
    (by
      intro raw hraw
      simp only [smallRun, List.mem_cons, List.mem_singleton, List.not_mem_nil, or_false] at hraw
      rcases hraw with e | e | e | e <;> subst e
      · exact ⟨none, rfl⟩
      · exact ⟨some (lit "😀", lit "grinning face"), rfl⟩
      · exact ⟨none, rfl⟩
      · exact ⟨some (lit "😁", lit "beaming face"), rfl⟩)
    (fun _ => rfl) (fun _ => ⟨rfl, rfl⟩)
  refine ⟨st, h1, h2, ?_⟩
  have h3 : mainLoop id smallRun State.init smallRun.lines =
      ((mainLoop id smallRun State.init smallRun.lines).1, none) := by rw [h1]
  have h4 : st = (mainLoop id smallRun State.init smallRun.lines).1 := by rw [h1]
  rw [h4]
  rfl

/-- Every line that passes the filter and whose payload holds no space is
logged as skipped and then ends the run with a panic at `parts[1]`. -/
theorem processLine_unsplit (tbl : Nat → Nat) (w : World) (st : State) (raw payload : GoString)
    (h1 : (TrimSpace raw).head? ≠ some 0x23)
    (h2 : lit "; fully-qualified" <:+: TrimSpace raw)
    (hp : sliceFrom (TrimSpace raw) (Index (TrimSpace raw) (lit "# ") + 2) = .ok payload)
    (h3 : 0x20 ∉ payload) :
    processLine tbl w st raw =
      ({ st with log := st.log ++ [LogLine.skipping (TrimSpace raw)] },
       some (Panic.indexOutOfRange 1 1)) := by
  have hne : TrimSpace raw ≠ [] := by
    intro e
    rw [e, lit_fq] at h2
    obtain ⟨a, b, hab⟩ := h2
    simp at hab
  have hidx : indexOf [0x20] payload = none := by
    rw [indexOf_eq_none]
    rintro ⟨a, b, hab⟩
    exact h3 (by rw [← hab]; simp)
  have hparse : parseLine raw =
      ([LogLine.skipping (TrimSpace raw)], .error (Panic.indexOutOfRange 1 1)) := by
    rw [parseLine_pass raw (HasPrefix_hash_false _ h1) hne ((Contains_iff _ _).2 h2), hp]
    simp only [SplitN_two, hidx]
    rfl
  unfold processLine
  rw [hparse]

end Alfredemoji
